import Mathlib

/-!
# Verification of the msys2-web build-queue engine specification

This development gives a shallow embedding, in Lean 4, of the parts of the
msys2-web code base that the specification talks about:

* `app/utils.py`: the rpm-style version comparator `vercmp` and
  `version_is_newer_than`;
* `app/api.py`: `get_srcinfos_to_build` and the `buildqueue2` endpoint
  (candidate selection, build-unit grouping, the transitive make-depends
  closure `get_transitive_makedepends` with its `resolve_package`
  resolution, the "new" marking, and the per-repo grouping of the output);
* `app/appstate.py` / `app/fetch/update.py`: the publication of the
  `sources` and `sourceinfos` maps by the refresh loop, modelled as an
  interleaving of atomic publish steps.

Python dictionaries are modelled as association lists in iteration
(insertion) order; Python sets as lists whose membership is what matters.
Machine-level details that the verified properties do not depend on
(HTTP, parsing of tarballs, fields of the output records that no claim
mentions) are omitted.
-/

namespace Msys2

/-! ## Python character classification and int conversion

`vercmp` uses Python's `str.isdigit`, `str.isalpha` and `int()`.  The
functions below model them exactly on the ASCII range, and additionally
model the superscript digits U+00B9, U+00B2, U+00B3, for which Python's
`str.isdigit` returns `True` while `int()` raises `ValueError` (they have
Unicode property `Numeric_Type=Digit` but are not decimal digits).  Other
non-ASCII code points are classified as neither digit nor alpha; this is
the only respect in which the embedding narrows Python's Unicode tables,
and none of the theorems below depend on the classification of code
points outside the modelled set. -/

/-- Model of Python `str.isdigit` on a single character (ASCII digits and
the superscript digits ¹ ² ³). -/
def pyIsDigit (c : Char) : Bool :=
  c.isDigit || c = '¹' || c = '²' || c = '³'

/-- Model of Python `str.isalpha` on a single character (ASCII letters). -/
def pyIsAlpha (c : Char) : Bool :=
  c.isAlpha

/-- Model of Python `int()` applied to a token of characters: it succeeds
exactly when the token is a nonempty run of decimal digits; a token
containing a "digit" that is not decimal (such as '²') raises
`ValueError`, modelled as `none`. -/
def pyInt (cs : List Char) : Option Nat :=
  if cs ≠ [] ∧ cs.all Char.isDigit then
    some (cs.foldl (fun n c => 10 * n + (c.toNat - 48)) 0)
  else
    none

/-- The three token classes of `vercmp.get_type` (`digit`, `alpha`, `other`). -/
inductive CharType where
  | digit : CharType
  | alpha : CharType
  | other : CharType
deriving DecidableEq

/-- `get_type` of `app/utils.py` applied to one character. -/
def pyGetType (c : Char) : CharType :=
  if pyIsDigit c then .digit else if pyIsAlpha c then .alpha else .other

/-- `get_type` of `app/utils.py` applied to a (nonempty) run of characters:
Python's `str.isdigit`/`str.isalpha` on a multi-character string hold iff
the string is nonempty and every character satisfies them. -/
def pyGetTypeRun (cs : List Char) : CharType :=
  if cs ≠ [] ∧ cs.all pyIsDigit then .digit
  else if cs ≠ [] ∧ cs.all pyIsAlpha then .alpha
  else .other

/-- The loop body of `vercmp.parse`: walk the characters, growing the
current run while the class is unchanged, flushing it otherwise. -/
def parseGo : List Char → List Char → List (List Char) → List (List Char)
  | [], current, parts => if current = [] then parts else parts ++ [current]
  | c :: cs, current, parts =>
    if current = [] then parseGo cs [c] parts
    else if pyGetType c = pyGetTypeRun current then parseGo cs (current ++ [c]) parts
    else parseGo cs [c] (parts ++ [current])

/-- `vercmp.parse`: split a version fragment into maximal runs of
same-class characters. -/
def parseRuns (v : List Char) : List (List Char) :=
  parseGo v [] []

/-- Python's `(a > b) - (a < b)` used by `vercmp.cmp`.  Antisymmetric by
construction for any relation. -/
def pycmp {α : Type} [LT α] [DecidableRel (α := α) (· < ·)] (a b : α) : Int :=
  (if b < a then 1 else 0) - (if a < b then 1 else 0)

/-- The `for p1, p2 in zip_longest(parse(v1), parse(v2))` loop of
`vercmp.rpmvercmp`, with `none` modelling a `ValueError` escaping from
`int()`. -/
def rpmLoop : List (List Char) → List (List Char) → Option Int
  | [], [] => some 0
  | [], p2 :: _ => some (if pyGetTypeRun p2 = .alpha then 1 else -1)
  | p1 :: _, [] => some (if pyGetTypeRun p1 = .alpha then -1 else 1)
  | p1 :: t1, p2 :: t2 =>
    if pyGetTypeRun p1 ≠ pyGetTypeRun p2 then
      if pyGetTypeRun p1 = .digit then some 1
      else if pyGetTypeRun p2 = .digit then some (-1)
      else if pyGetTypeRun p1 = .other then some 1
      else if pyGetTypeRun p2 = .other then some (-1)
      else rpmLoop t1 t2
    else
      match pyGetTypeRun p1 with
      | .other =>
        if pycmp p1.length p2.length ≠ 0 then some (pycmp p1.length p2.length)
        else rpmLoop t1 t2
      | .digit =>
        match pyInt p1, pyInt p2 with
        | some a, some b =>
          if pycmp a b ≠ 0 then some (pycmp a b) else rpmLoop t1 t2
        | _, _ => none
      | .alpha =>
        if pycmp p1 p2 ≠ 0 then some (pycmp p1 p2) else rpmLoop t1 t2

/-- `vercmp.rpmvercmp` on one version fragment. -/
def rpmvercmp (a b : List Char) : Option Int :=
  rpmLoop (parseRuns a) (parseRuns b)

/-- Split a character list at the first occurrence of `sep`
(Python `v.split(sep, 1)` when `sep in v`). -/
def splitFirstOn (sep : Char) : List Char → Option (List Char × List Char)
  | [] => none
  | c :: cs =>
    if c = sep then some ([], cs)
    else (splitFirstOn sep cs).map (fun p => (c :: p.1, p.2))

/-- Split a character list at the last occurrence of `sep`
(Python `v.rsplit(sep, 1)` when `sep in v`). -/
def splitLastOn (sep : Char) (cs : List Char) : Option (List Char × List Char) :=
  (splitFirstOn sep cs.reverse).map (fun p => (p.2.reverse, p.1.reverse))

/-- Second half of `vercmp.split`: given the epoch `e` already extracted,
split off the release part after the last `-`, if any. -/
def pySplitRel (e v : List Char) : List Char × List Char × Option (List Char) :=
  match splitLastOn '-' v with
  | some q => (e, q.1, some q.2)
  | none => (e, v, none)

/-- `vercmp.split`: extract `(epoch, upstream, release)`; the epoch
separator in this code base is `~` and a missing epoch reads `"0"`; the
release is the part after the last `-`, if any. -/
def pySplitVersion (v : List Char) : List Char × List Char × Option (List Char) :=
  match splitFirstOn '~' v with
  | some p => pySplitRel p.1 p.2
  | none => pySplitRel ['0'] v

/-- `vercmp` of `app/utils.py`.  `none` models a `ValueError` raised by
`int()` on a digit-classified token that is not decimal. -/
def vercmp (v1 v2 : String) : Option Int :=
  match rpmvercmp (pySplitVersion v1.toList).1 (pySplitVersion v2.toList).1 with
  | none => none
  | some ret =>
    if ret = 0 then
      match rpmvercmp (pySplitVersion v1.toList).2.1 (pySplitVersion v2.toList).2.1 with
      | none => none
      | some ret2 =>
        if ret2 = 0 then
          match (pySplitVersion v1.toList).2.2, (pySplitVersion v2.toList).2.2 with
          | some r1, some r2 => rpmvercmp r1 r2
          | _, _ => some ret2
        else some ret2
    else some ret

/-- `version_is_newer_than` of `app/utils.py`.  In the code a
`ValueError` escaping from `vercmp` would propagate; every version string
occurring in the claims below is ASCII, where `vercmp` is total, so the
totalisation `none ↦ false` is never exercised by them. -/
def version_is_newer_than (v1 v2 : String) : Bool :=
  vercmp v1 v2 == some 1

example : vercmp "1.0.0" "1.0.0" = some 0 := by decide
example : vercmp "1.0.0" "1.0.0.r101" = some (-1) := by decide
example : vercmp "2019.10.06" "2020.12.07" = some (-1) := by decide
example : vercmp "6.8" "6.8." = some (-1) := by decide
example : vercmp "." "" = some 1 := by decide
example : vercmp "0" "00" = some 0 := by decide
example : vercmp "." "..0" = some (-1) := by decide
example : vercmp ".0" "..0" = some (-1) := by decide
example : vercmp "1r" "1" = some (-1) := by decide
example : vercmp "r1" "r" = some 1 := by decide
example : vercmp "1.1.0." "1.1.0a" = some 1 := by decide
example : vercmp "a" "1" = some (-1) := by decide
example : vercmp "." "a" = some 1 := by decide
example : vercmp "a1" "1" = some (-1) := by decide
example : vercmp "1.3_20200327" "1.3_20210319" = some (-1) := by decide

/-! ## Algebraic properties of the comparator -/

theorem pycmp_flip {α : Type} [LT α] [DecidableRel (α := α) (· < ·)] (a b : α) :
    pycmp b a = -(pycmp a b) := by
  unfold pycmp; split_ifs <;> omega

theorem pycmp_self {α : Type} [LT α] [DecidableRel (α := α) (· < ·)] (a : α) :
    pycmp a a = 0 := by
  unfold pycmp; split_ifs <;> omega

theorem pycmp_range {α : Type} [LT α] [DecidableRel (α := α) (· < ·)] (a b : α) :
    pycmp a b = -1 ∨ pycmp a b = 0 ∨ pycmp a b = 1 := by
  unfold pycmp; split_ifs <;> omega

theorem rpmLoop_flip : ∀ l1 l2, rpmLoop l2 l1 = (rpmLoop l1 l2).map (fun r => -r) := by
  intro l1
  induction l1 with
  | nil =>
    intro l2
    cases l2 with
    | nil => simp [rpmLoop]
    | cons p2 t2 => by_cases h : pyGetTypeRun p2 = CharType.alpha <;> simp [rpmLoop, h]
  | cons p1 t1 ih =>
    intro l2
    cases l2 with
    | nil => by_cases h : pyGetTypeRun p1 = CharType.alpha <;> simp [rpmLoop, h]
    | cons p2 t2 =>
      by_cases h : pyGetTypeRun p1 = pyGetTypeRun p2
      · cases hT : pyGetTypeRun p1 with
        | other =>
          have hT2 : pyGetTypeRun p2 = .other := by rw [← h, hT]
          rw [rpmLoop, rpmLoop, hT, hT2]
          show (if pycmp p2.length p1.length ≠ 0 then some (pycmp p2.length p1.length)
                else rpmLoop t2 t1)
              = Option.map (fun r => -r)
                (if pycmp p1.length p2.length ≠ 0 then some (pycmp p1.length p2.length)
                 else rpmLoop t1 t2)
          rw [pycmp_flip (a := p1.length) (b := p2.length)]
          by_cases hr : pycmp p1.length p2.length = 0
          · simp [hr, ih]
          · simp [hr]
        | digit =>
          have hT2 : pyGetTypeRun p2 = .digit := by rw [← h, hT]
          rw [rpmLoop, rpmLoop, hT, hT2]
          show (match pyInt p2, pyInt p1 with
                | some a, some b =>
                  if pycmp a b ≠ 0 then some (pycmp a b) else rpmLoop t2 t1
                | _, _ => none)
              = Option.map (fun r => -r)
                (match pyInt p1, pyInt p2 with
                 | some a, some b =>
                   if pycmp a b ≠ 0 then some (pycmp a b) else rpmLoop t1 t2
                 | _, _ => none)
          cases hA : pyInt p1 <;> cases hB : pyInt p2
          · rfl
          · rfl
          · rfl
          · rename_i a b
            show (if pycmp b a ≠ 0 then some (pycmp b a) else rpmLoop t2 t1)
                = Option.map (fun r => -r)
                  (if pycmp a b ≠ 0 then some (pycmp a b) else rpmLoop t1 t2)
            rw [pycmp_flip (a := a) (b := b)]
            by_cases hr : pycmp a b = 0
            · simp [hr, ih]
            · simp [hr]
        | alpha =>
          have hT2 : pyGetTypeRun p2 = .alpha := by rw [← h, hT]
          rw [rpmLoop, rpmLoop, hT, hT2]
          show (if pycmp p2 p1 ≠ 0 then some (pycmp p2 p1) else rpmLoop t2 t1)
              = Option.map (fun r => -r)
                (if pycmp p1 p2 ≠ 0 then some (pycmp p1 p2) else rpmLoop t1 t2)
          rw [pycmp_flip (a := p1) (b := p2)]
          by_cases hr : pycmp p1 p2 = 0
          · simp [hr, ih]
          · simp [hr]
      · have h' : pyGetTypeRun p2 ≠ pyGetTypeRun p1 := fun hx => h hx.symm
        rw [rpmLoop, rpmLoop]
        simp only [ne_eq, h, h', not_false_eq_true, if_true]
        cases hT1 : pyGetTypeRun p1 <;> cases hT2 : pyGetTypeRun p2 <;>
          simp_all [ih]

theorem rpmLoop_self : ∀ l, rpmLoop l l = none ∨ rpmLoop l l = some 0 := by
  intro l
  induction l with
  | nil => right; rfl
  | cons p t ih =>
    rw [rpmLoop]
    simp only [ne_eq, not_true_eq_false, if_false]
    cases hT : pyGetTypeRun p with
    | other => simpa [pycmp_self] using ih
    | digit =>
      cases hA : pyInt p
      · left; rfl
      · simpa [pycmp_self] using ih
    | alpha => simpa [pycmp_self] using ih

theorem rpmvercmp_flip (a b : List Char) :
    rpmvercmp b a = (rpmvercmp a b).map (fun r => -r) := by
  unfold rpmvercmp; exact rpmLoop_flip _ _

theorem rpmvercmp_self (a : List Char) :
    rpmvercmp a a = none ∨ rpmvercmp a a = some 0 := by
  unfold rpmvercmp; exact rpmLoop_self _

theorem vercmp_flip (a b : String) : vercmp b a = (vercmp a b).map (fun r => -r) := by
  unfold vercmp
  rw [rpmvercmp_flip (pySplitVersion a.toList).1 (pySplitVersion b.toList).1]
  cases hE : rpmvercmp (pySplitVersion a.toList).1 (pySplitVersion b.toList).1 with
  | none => rfl
  | some ret =>
    simp only [Option.map_some']
    by_cases h0 : ret = 0
    · simp only [h0, neg_zero, if_pos rfl]
      rw [rpmvercmp_flip (pySplitVersion a.toList).2.1 (pySplitVersion b.toList).2.1]
      cases hV : rpmvercmp (pySplitVersion a.toList).2.1 (pySplitVersion b.toList).2.1 with
      | none => rfl
      | some ret2 =>
        simp only [Option.map_some']
        by_cases h2 : ret2 = 0
        · subst h2
          cases hR1 : (pySplitVersion a.toList).2.2 with
          | none => cases hR2 : (pySplitVersion b.toList).2.2 <;> simp
          | some r1 =>
            cases hR2 : (pySplitVersion b.toList).2.2 with
            | none => simp
            | some r2 => simpa using rpmvercmp_flip r1 r2
        · have h2' : -ret2 ≠ 0 := by omega
          simp [h2, h2']
    · have h0' : -ret ≠ 0 := by omega
      simp [h0, h0']

theorem vercmp_self (a : String) : vercmp a a = none ∨ vercmp a a = some 0 := by
  unfold vercmp
  cases hE : rpmvercmp (pySplitVersion a.toList).1 (pySplitVersion a.toList).1 with
  | none => left; rfl
  | some ret =>
    have hr0 : ret = 0 := by
      rcases rpmvercmp_self (pySplitVersion a.toList).1 with h | h <;> rw [h] at hE
      · exact absurd hE (by simp)
      · injection hE with hE; omega
    subst hr0
    simp only [if_pos rfl]
    cases hV : rpmvercmp (pySplitVersion a.toList).2.1 (pySplitVersion a.toList).2.1 with
    | none => left; rfl
    | some ret2 =>
      have hr2 : ret2 = 0 := by
        rcases rpmvercmp_self (pySplitVersion a.toList).2.1 with h | h <;> rw [h] at hV
        · exact absurd hV (by simp)
        · injection hV with hV; omega
      subst hr2
      simp only [if_pos rfl]
      cases hR : (pySplitVersion a.toList).2.2 with
      | none => right; rfl
      | some r => exact rpmvercmp_self r

/-! ## Totality and range of the comparator on ASCII input -/

theorem rpmLoop_range :
    ∀ l1 l2 r, rpmLoop l1 l2 = some r → r = -1 ∨ r = 0 ∨ r = 1 := by
  intro l1
  induction l1 with
  | nil =>
    intro l2 r h
    cases l2 with
    | nil => rw [rpmLoop] at h; injection h with h; omega
    | cons p2 t2 =>
      rw [rpmLoop] at h
      split at h <;> (injection h with h; omega)
  | cons p1 t1 ih =>
    intro l2 r h
    cases l2 with
    | nil =>
      rw [rpmLoop] at h
      split at h <;> (injection h with h; omega)
    | cons p2 t2 =>
      rw [rpmLoop] at h
      split at h
      · split_ifs at h <;> first
          | (injection h with h; omega)
          | exact ih t2 r h
      · split at h
        · split_ifs at h with hc
          · injection h with h
            rcases pycmp_range p1.length p2.length with h1 | h1 | h1 <;> omega
          · exact ih t2 r h
        · split at h
          · rename_i a b _ _
            split_ifs at h with hc
            · injection h with h
              rcases pycmp_range a b with h1 | h1 | h1 <;> omega
            · exact ih t2 r h
          · exact absurd h (by simp)
        · split_ifs at h with hc
          · injection h with h
            rcases pycmp_range p1 p2 with h1 | h1 | h1 <;> omega
          · exact ih t2 r h

theorem ascii_pyIsDigit {c : Char} (ha : c.toNat < 128) (hd : pyIsDigit c = true) :
    c.isDigit = true := by
  unfold pyIsDigit at hd
  simp only [Bool.or_eq_true, decide_eq_true_eq] at hd
  rcases hd with ((hd | hd) | hd) | hd
  · exact hd
  · subst hd; exact absurd ha (by decide)
  · subst hd; exact absurd ha (by decide)
  · subst hd; exact absurd ha (by decide)

theorem pyInt_of_ascii_digit {t : List Char}
    (hT : pyGetTypeRun t = .digit) (ha : ∀ c ∈ t, c.toNat < 128) :
    ∃ n, pyInt t = some n := by
  unfold pyGetTypeRun at hT
  split_ifs at hT with h1 h2
  · have hall : t.all Char.isDigit = true := by
      rw [List.all_eq_true]
      intro c hc
      exact ascii_pyIsDigit (ha c hc) (List.all_eq_true.mp h1.2 c hc)
    exact ⟨_, by unfold pyInt; rw [if_pos ⟨h1.1, hall⟩]⟩

theorem rpmLoop_total_ascii :
    ∀ l1 l2, (∀ t ∈ l1, ∀ c ∈ t, c.toNat < 128) → (∀ t ∈ l2, ∀ c ∈ t, c.toNat < 128) →
      ∃ r, rpmLoop l1 l2 = some r := by
  intro l1
  induction l1 with
  | nil =>
    intro l2 _ _
    cases l2 with
    | nil => exact ⟨0, rfl⟩
    | cons p2 t2 =>
      rw [rpmLoop]
      exact ⟨_, rfl⟩
  | cons p1 t1 ih =>
    intro l2 h1 h2
    cases l2 with
    | nil =>
      rw [rpmLoop]
      exact ⟨_, rfl⟩
    | cons p2 t2 =>
      have h1' : ∀ t ∈ t1, ∀ c ∈ t, c.toNat < 128 :=
        fun t ht => h1 t (List.mem_cons_of_mem _ ht)
      have h2' : ∀ t ∈ t2, ∀ c ∈ t, c.toNat < 128 :=
        fun t ht => h2 t (List.mem_cons_of_mem _ ht)
      rw [rpmLoop]
      split
      · split_ifs <;> first | exact ⟨_, rfl⟩ | exact ih t2 h1' h2'
      · rename_i hne
        have heq : pyGetTypeRun p1 = pyGetTypeRun p2 := not_not.mp hne
        split
        · split_ifs <;> first | exact ⟨_, rfl⟩ | exact ih t2 h1' h2'
        · rename_i hT
          have hT2 : pyGetTypeRun p2 = .digit := by rw [← heq]; exact hT
          obtain ⟨n1, hn1⟩ := pyInt_of_ascii_digit hT (by
            intro c hc; exact h1 p1 (List.mem_cons_self p1 t1) c hc)
          obtain ⟨n2, hn2⟩ := pyInt_of_ascii_digit hT2 (by
            intro c hc; exact h2 p2 (List.mem_cons_self p2 t2) c hc)
          rw [hn1, hn2]
          show ∃ r, (if pycmp n1 n2 ≠ 0 then some (pycmp n1 n2) else rpmLoop t1 t2) = some r
          split_ifs <;> first | exact ⟨_, rfl⟩ | exact ih t2 h1' h2'
        · split_ifs <;> first | exact ⟨_, rfl⟩ | exact ih t2 h1' h2'

theorem parseGo_chars {P : Char → Prop} :
    ∀ (cs current : List Char) (parts : List (List Char)),
      (∀ t ∈ parts, ∀ c ∈ t, P c) → (∀ c ∈ current, P c) → (∀ c ∈ cs, P c) →
      ∀ t ∈ parseGo cs current parts, ∀ c ∈ t, P c := by
  intro cs
  induction cs with
  | nil =>
    intro current parts hp hcur _
    rw [parseGo]
    split
    · exact hp
    · intro t ht
      rcases List.mem_append.mp ht with h | h
      · exact hp t h
      · rw [List.mem_singleton] at h; subst h; exact hcur
  | cons c cs ih =>
    intro current parts hp hcur hcs
    have hc : P c := hcs c (List.mem_cons_self c cs)
    have hcs' : ∀ x ∈ cs, P x := fun x hx => hcs x (List.mem_cons_of_mem _ hx)
    rw [parseGo]
    split_ifs with h1 h2
    · refine ih [c] parts hp ?_ hcs'
      intro x hx; rw [List.mem_singleton] at hx; subst hx; exact hc
    · refine ih (current ++ [c]) parts hp ?_ hcs'
      intro x hx
      rcases List.mem_append.mp hx with h | h
      · exact hcur x h
      · rw [List.mem_singleton] at h; subst h; exact hc
    · refine ih [c] (parts ++ [current]) ?_ ?_ hcs'
      · intro t ht
        rcases List.mem_append.mp ht with h | h
        · exact hp t h
        · rw [List.mem_singleton] at h; subst h; exact hcur
      · intro x hx; rw [List.mem_singleton] at hx; subst hx; exact hc

theorem parseRuns_chars {P : Char → Prop} (v : List Char) (hv : ∀ c ∈ v, P c) :
    ∀ t ∈ parseRuns v, ∀ c ∈ t, P c := by
  refine parseGo_chars v [] [] ?_ ?_ hv
  · intro t ht; exact absurd ht (by simp)
  · intro c hc; exact absurd hc (by simp)

theorem splitFirstOn_chars {sep : Char} :
    ∀ (cs a b : List Char), splitFirstOn sep cs = some (a, b) →
      (∀ c ∈ a, c ∈ cs) ∧ (∀ c ∈ b, c ∈ cs) := by
  intro cs
  induction cs with
  | nil => intro a b h; exact absurd h (by simp [splitFirstOn])
  | cons x xs ih =>
    intro a b h
    rw [splitFirstOn] at h
    split_ifs at h with hx
    · injection h with h
      cases h
      refine ⟨by simp, ?_⟩
      intro c hc; exact List.mem_cons_of_mem _ hc
    · cases hsp : splitFirstOn sep xs with
      | none => rw [hsp] at h; exact absurd h (by simp)
      | some p =>
        rw [hsp] at h
        simp only [Option.map_some'] at h
        injection h with h
        cases h
        obtain ⟨ih1, ih2⟩ := ih p.1 p.2 (by rw [hsp])
        constructor
        · intro c hc
          rcases List.mem_cons.mp hc with h | h
          · subst h; exact List.mem_cons_self c xs
          · exact List.mem_cons_of_mem _ (ih1 c h)
        · intro c hc
          exact List.mem_cons_of_mem _ (ih2 c hc)

theorem splitLastOn_chars {sep : Char} (cs a b : List Char)
    (h : splitLastOn sep cs = some (a, b)) :
    (∀ c ∈ a, c ∈ cs) ∧ (∀ c ∈ b, c ∈ cs) := by
  unfold splitLastOn at h
  cases hsp : splitFirstOn sep cs.reverse with
  | none => rw [hsp] at h; exact absurd h (by simp)
  | some p =>
    rw [hsp] at h
    simp only [Option.map_some'] at h
    injection h with h
    cases h
    obtain ⟨h1, h2⟩ := splitFirstOn_chars cs.reverse p.1 p.2 (by rw [hsp])
    constructor
    · intro c hc
      rw [List.mem_reverse] at hc
      have := h2 c hc
      rwa [List.mem_reverse] at this
    · intro c hc
      rw [List.mem_reverse] at hc
      have := h1 c hc
      rwa [List.mem_reverse] at this

theorem pySplitVersion_chars {P : Char → Prop} (v : List Char)
    (hv : ∀ c ∈ v, P c) (h0 : P '0') :
    (∀ c ∈ (pySplitVersion v).1, P c) ∧ (∀ c ∈ (pySplitVersion v).2.1, P c) ∧
      (∀ t, (pySplitVersion v).2.2 = some t → ∀ c ∈ t, P c) := by
  have hrel : ∀ (e w : List Char), (∀ c ∈ e, P c) → (∀ c ∈ w, P c) →
      (∀ c ∈ (pySplitRel e w).1, P c) ∧ (∀ c ∈ (pySplitRel e w).2.1, P c) ∧
        (∀ t, (pySplitRel e w).2.2 = some t → ∀ c ∈ t, P c) := by
    intro e w he hw
    unfold pySplitRel
    cases hl : splitLastOn '-' w with
    | some q =>
      obtain ⟨hq1, hq2⟩ := splitLastOn_chars w q.1 q.2 (by rw [hl])
      refine ⟨he, fun c hc => hw c (hq1 c hc), ?_⟩
      intro t ht
      injection ht with ht
      subst ht
      exact fun c hc => hw c (hq2 c hc)
    | none => exact ⟨he, hw, by simp⟩
  unfold pySplitVersion
  cases hf : splitFirstOn '~' v with
  | some p =>
    obtain ⟨hp1, hp2⟩ := splitFirstOn_chars v p.1 p.2 (by rw [hf])
    exact hrel p.1 p.2 (fun c hc => hv c (hp1 c hc)) (fun c hc => hv c (hp2 c hc))
  | none =>
    refine hrel ['0'] v ?_ hv
    intro c hc; rw [List.mem_singleton] at hc; subst hc; exact h0

theorem rpmvercmp_range (x y : List Char) (r : Int) (h : rpmvercmp x y = some r) :
    r = -1 ∨ r = 0 ∨ r = 1 :=
  rpmLoop_range (parseRuns x) (parseRuns y) r h

theorem rpmvercmp_total_ascii (x y : List Char)
    (hx : ∀ c ∈ x, c.toNat < 128) (hy : ∀ c ∈ y, c.toNat < 128) :
    ∃ r, rpmvercmp x y = some r :=
  rpmLoop_total_ascii (parseRuns x) (parseRuns y)
    (parseRuns_chars x hx) (parseRuns_chars y hy)

theorem vercmp_range (a b : String) (r : Int) (h : vercmp a b = some r) :
    r = -1 ∨ r = 0 ∨ r = 1 := by
  unfold vercmp at h
  split at h
  · exact absurd h (by simp)
  · rename_i ret h1
    split_ifs at h with h0
    · split at h
      · exact absurd h (by simp)
      · rename_i ret2 h2
        split_ifs at h with h20
        · split at h
          · exact rpmvercmp_range _ _ r h
          · injection h with h; omega
        · injection h with h
          subst h
          exact rpmvercmp_range _ _ ret2 h2
    · injection h with h
      subst h
      exact rpmvercmp_range _ _ ret h1

theorem vercmp_total_ascii (a b : String)
    (ha : ∀ c ∈ a.toList, c.toNat < 128) (hb : ∀ c ∈ b.toList, c.toNat < 128) :
    ∃ r, vercmp a b = some r := by
  have h48 : ('0' : Char).toNat < 128 := by decide
  obtain ⟨hA1, hA2, hA3⟩ :=
    pySplitVersion_chars (P := fun c => c.toNat < 128) a.toList ha h48
  obtain ⟨hB1, hB2, hB3⟩ :=
    pySplitVersion_chars (P := fun c => c.toNat < 128) b.toList hb h48
  unfold vercmp
  obtain ⟨r1, hr1⟩ := rpmvercmp_total_ascii _ _ hA1 hB1
  rw [hr1]
  by_cases h0 : r1 = 0
  · subst h0
    show ∃ r,
      (match rpmvercmp (pySplitVersion a.toList).2.1 (pySplitVersion b.toList).2.1 with
       | none => none
       | some ret2 =>
         if ret2 = 0 then
           match (pySplitVersion a.toList).2.2, (pySplitVersion b.toList).2.2 with
           | some x1, some x2 => rpmvercmp x1 x2
           | _, _ => some ret2
         else some ret2) = some r
    obtain ⟨r2, hr2⟩ := rpmvercmp_total_ascii _ _ hA2 hB2
    rw [hr2]
    by_cases h20 : r2 = 0
    · subst h20
      show ∃ r,
        (match (pySplitVersion a.toList).2.2, (pySplitVersion b.toList).2.2 with
         | some x1, some x2 => rpmvercmp x1 x2
         | _, _ => some (0 : Int)) = some r
      cases hRa : (pySplitVersion a.toList).2.2 with
      | none => exact ⟨0, rfl⟩
      | some ra =>
        cases hRb : (pySplitVersion b.toList).2.2 with
        | none => exact ⟨0, rfl⟩
        | some rb =>
          exact rpmvercmp_total_ascii ra rb (hA3 ra hRa) (hB3 rb hRb)
    · show ∃ r, (if r2 = 0 then
          match (pySplitVersion a.toList).2.2, (pySplitVersion b.toList).2.2 with
          | some x1, some x2 => rpmvercmp x1 x2
          | _, _ => some r2
        else some r2) = some r
      rw [if_neg h20]
      exact ⟨r2, rfl⟩
  · show ∃ r, (if r1 = 0 then
        match rpmvercmp (pySplitVersion a.toList).2.1 (pySplitVersion b.toList).2.1 with
        | none => none
        | some ret2 =>
          if ret2 = 0 then
            match (pySplitVersion a.toList).2.2, (pySplitVersion b.toList).2.2 with
            | some x1, some x2 => rpmvercmp x1 x2
            | _, _ => some ret2
          else some ret2
      else some r1) = some r
    rw [if_neg h0]
    exact ⟨r1, rfl⟩

/-! ## Claims C4, C5, C6: the version comparator -/

/-- **C4, counterexample.**  The claim "for every version string `a`,
`vercmp(a, a) == 0`" fails at the concrete input `a = "²"`: Python's
`"²".isdigit()` is `True`, so both tokens are digit-classified and
`vercmp` evaluates `int("²")`, which raises `ValueError` (modelled as
`none`); the call does not return `0` — it does not return at all. -/
theorem c4_counterexample : vercmp "²" "²" = none ∧ vercmp "²" "²" ≠ some 0 := by
  constructor
  · decide
  · decide

/-- **C4, amended.**  Whenever `vercmp` returns at all, it is
antisymmetric — `vercmp b a` is exactly the negation of `vercmp a b`, and
one raises iff the other does — and `vercmp a a` is `0` whenever it does
not raise. -/
theorem c4_theorem :
    (∀ a b : String, vercmp b a = (vercmp a b).map (fun r => -r)) ∧
    (∀ a : String, vercmp a a = none ∨ vercmp a a = some 0) :=
  ⟨vercmp_flip, vercmp_self⟩

/-- **C5, counterexample.**  `vercmp("1:3.6.9-1", "3.6.9-1")` is `-1`,
not `1`: this code base uses `~` (not `:`) as the epoch separator, so
`"1:3.6.9"` is compared token-wise against `"3.6.9"` and loses on the
first numeric token (`1 < 3`). -/
theorem c5_counterexample :
    vercmp "1:3.6.9-1" "3.6.9-1" = some (-1) ∧
      vercmp "1:3.6.9-1" "3.6.9-1" ≠ some 1 := by
  constructor
  · decide
  · decide

/-- **C5, amended.**  The concrete comparator examples, with epoch
dominance stated for the code's actual epoch separator `~`:
`vercmp("1.0.0","2.0.0") == -1`, `vercmp("6.8","6.8.3") == -1`,
`vercmp("1.1.0","1.1.0a") == 1`, and `vercmp("1~3.6.9-1","3.6.9-1") == 1`
(the epoch-carrying version compares as newer). -/
theorem c5_theorem :
    vercmp "1.0.0" "2.0.0" = some (-1) ∧ vercmp "6.8" "6.8.3" = some (-1) ∧
      vercmp "1.1.0" "1.1.0a" = some 1 ∧ vercmp "1~3.6.9-1" "3.6.9-1" = some 1 := by
  refine ⟨?_, ?_, ?_, ?_⟩ <;> decide

/-- **C6, counterexample.**  `vercmp` is not exception-free on all
inputs: on the non-ASCII input `"²"` (against `"0"`), the token `"²"` is
digit-classified by `str.isdigit` but `int("²")` raises `ValueError`
(modelled as `none`), so `vercmp` raises instead of returning a value in
`{-1, 0, 1}`. -/
theorem c6_counterexample : vercmp "²" "0" = none := by decide

/-- **C6, amended.**  On all ASCII inputs — including empty strings,
empty segments and stray separators — `vercmp` never raises: every
`int()` conversion of a digit run succeeds, and the result is a value in
`{-1, 0, 1}`. -/
theorem c6_theorem (a b : String)
    (ha : ∀ c ∈ a.toList, c.toNat < 128) (hb : ∀ c ∈ b.toList, c.toNat < 128) :
    ∃ r, vercmp a b = some r ∧ (r = -1 ∨ r = 0 ∨ r = 1) := by
  obtain ⟨r, hr⟩ := vercmp_total_ascii a b ha hb
  exact ⟨r, hr, vercmp_range a b r hr⟩

/-- Witness for C6 at the malformed ASCII inputs `"."` and `""`. -/
theorem c6_witness :
    (∀ c ∈ ".".toList, c.toNat < 128) ∧ (∀ c ∈ "".toList, c.toNat < 128) ∧
      ∃ r, vercmp "." "" = some r ∧ (r = -1 ∨ r = 0 ∨ r = 1) :=
  ⟨by decide, by decide, c6_theorem "." "" (by decide) (by decide)⟩

/-! ## List helpers

Python iterates dictionaries in insertion order; `dedupF` keeps the first
occurrence of each element, which is how iterating the keys of a dict
built by repeated `setdefault`/insertion behaves.  `lastAssoc` looks up
an association list giving the *last* binding, which is how repeated
dict assignment `d[k] = v` behaves.  `insertLe` / `sortedStrings` model
Python `sorted` on strings. -/

def dedupGo {α : Type} [DecidableEq α] : List α → List α → List α
  | _, [] => []
  | seen, x :: xs =>
    if x ∈ seen then dedupGo seen xs else x :: dedupGo (x :: seen) xs

def dedupF {α : Type} [DecidableEq α] (l : List α) : List α :=
  dedupGo [] l

theorem mem_dedupGo {α : Type} [DecidableEq α] :
    ∀ (l seen : List α) (a : α), a ∈ dedupGo seen l ↔ a ∈ l ∧ a ∉ seen := by
  intro l
  induction l with
  | nil => intro seen a; simp [dedupGo]
  | cons x xs ih =>
    intro seen a
    rw [dedupGo]
    split_ifs with hx
    · rw [ih]
      constructor
      · rintro ⟨h1, h2⟩
        exact ⟨List.mem_cons_of_mem _ h1, h2⟩
      · rintro ⟨h1, h2⟩
        rcases List.mem_cons.mp h1 with h | h
        · subst h; exact absurd hx h2
        · exact ⟨h, h2⟩
    · constructor
      · intro h
        rcases List.mem_cons.mp h with h | h
        · subst h; exact ⟨List.mem_cons_self a xs, hx⟩
        · rw [ih] at h
          refine ⟨List.mem_cons_of_mem _ h.1, ?_⟩
          have := h.2
          intro hc
          exact this (List.mem_cons_of_mem _ hc)
      · rintro ⟨h1, h2⟩
        rcases List.mem_cons.mp h1 with h | h
        · subst h; exact List.mem_cons_self a _
        · by_cases hax : a = x
          · subst hax; exact List.mem_cons_self a _
          · refine List.mem_cons_of_mem _ ?_
            rw [ih]
            refine ⟨h, ?_⟩
            intro hc
            rcases List.mem_cons.mp hc with hh | hh
            · exact hax hh
            · exact h2 hh

theorem mem_dedupF {α : Type} [DecidableEq α] (l : List α) (a : α) :
    a ∈ dedupF l ↔ a ∈ l := by
  rw [dedupF, mem_dedupGo]
  simp

theorem nodup_dedupGo {α : Type} [DecidableEq α] :
    ∀ (l seen : List α), (dedupGo seen l).Nodup := by
  intro l
  induction l with
  | nil => intro seen; simp [dedupGo]
  | cons x xs ih =>
    intro seen
    rw [dedupGo]
    split_ifs with hx
    · exact ih seen
    · refine List.Nodup.cons ?_ (ih (x :: seen))
      intro hc
      rw [mem_dedupGo] at hc
      exact hc.2 (List.mem_cons_self x seen)

theorem nodup_dedupF {α : Type} [DecidableEq α] (l : List α) : (dedupF l).Nodup :=
  nodup_dedupGo l []

def lastAssoc (pairs : List (String × String)) (key : String) : Option String :=
  (pairs.reverse.find? (fun p => p.1 == key)).map (·.2)

def insertLe (x : String) : List String → List String
  | [] => [x]
  | y :: ys => if x ≤ y then x :: y :: ys else y :: insertLe x ys

def sortedStrings (l : List String) : List String :=
  l.foldr insertLe []

theorem mem_insertLe (x a : String) :
    ∀ l, a ∈ insertLe x l ↔ a = x ∨ a ∈ l := by
  intro l
  induction l with
  | nil => simp [insertLe]
  | cons y ys ih =>
    rw [insertLe]
    split_ifs with hle
    · simp [List.mem_cons]
    · simp only [List.mem_cons, ih]
      tauto

theorem mem_sortedStrings (l : List String) (a : String) :
    a ∈ sortedStrings l ↔ a ∈ l := by
  induction l with
  | nil => simp [sortedStrings]
  | cons x xs ih =>
    show a ∈ insertLe x (sortedStrings xs) ↔ _
    rw [mem_insertLe, ih]
    simp [List.mem_cons]

/-! ## The data model of `app/appstate.py`

A binary `Package` is modelled by the fields the engine reads: `name`,
`version`, `repo`, and its declared run-time `depends` (the keys of the
`split_depends` dictionary; the binary depends are consumed only by the
specification's reference closure, not by `buildqueue2` itself).  A
`SrcInfoPackage` carries the fields `buildqueue2` reads; the dependency
dictionaries are modelled by their key lists.  A `Source` is a pkgbase
with its binary packages, listed in the iteration order
`sorted(s.packages.items())` used by the code.  A `Snapshot` is the pair
of `state.sources` (dict values in insertion order) and
`state.sourceinfos` (dict values in insertion order; pkgnames are unique
in the real dict, which theorems state as a `Nodup` hypothesis where it
matters). -/

structure Package where
  name : String
  version : String
  repo : String
  depends : List String
deriving DecidableEq, Inhabited

structure SrcInfoPackage where
  pkgbase : String
  pkgname : String
  pkgver : String
  pkgrel : String
  epoch : String
  repo : String
  repo_url : String
  repo_path : String
  depends : List String
  makedepends : List String
  provides : List String
  replaces : List String
deriving DecidableEq, Inhabited

/-- `SrcInfoPackage.build_version` of `app/appstate.py`:
`f"{pkgver}-{pkgrel}"`, prefixed by `f"{epoch}~"` when the epoch is
truthy (nonempty). -/
def SrcInfoPackage.build_version (si : SrcInfoPackage) : String :=
  if si.epoch ≠ "" then si.epoch ++ "~" ++ si.pkgver ++ "-" ++ si.pkgrel
  else si.pkgver ++ "-" ++ si.pkgrel

structure Source where
  name : String
  packages : List Package
deriving DecidableEq, Inhabited

structure Snapshot where
  sources : List Source
  sourceinfos : List SrcInfoPackage
deriving DecidableEq, Inhabited

/-- `pkgname in state.sourceinfos` / `state.sourceinfos[pkgname]`:
dictionary lookup, modelled as first match (the real dict has unique
keys). -/
def lookupSI (st : Snapshot) (name : String) : Option SrcInfoPackage :=
  st.sourceinfos.find? (fun si => si.pkgname == name)

/-- All binary packages of the snapshot, over all sources. -/
def binaryPackages (st : Snapshot) : List Package :=
  st.sources.flatMap (·.packages)

/-- The names of all binary packages in the snapshot (any repo). -/
def binaryNames (st : Snapshot) : List String :=
  (binaryPackages st).map (·.name)

/-! ## `get_srcinfos_to_build` of `app/api.py` -/

/-- The "packages that should be updated" loop of `get_srcinfos_to_build`:
for every binary package (in iteration order), if a `SrcInfoPackage` with
its name exists and its `build_version` is newer than the binary version,
that srcinfo is appended. -/
def updateCandidates (st : Snapshot) : List SrcInfoPackage :=
  st.sources.flatMap (fun s =>
    s.packages.filterMap (fun p =>
      match lookupSI st p.name with
      | some si =>
        if version_is_newer_than si.build_version p.version then some si else none
      | none => none))

/-- The `not_in_repo` map of `get_srcinfos_to_build`: srcinfos whose
pkgname is not the name of any binary package.  (In the code this is a
dict keyed by pkgname from which all binary names are popped; with the
dict's unique pkgnames this is exactly this filter, in iteration
order.) -/
def notInRepo (st : Snapshot) : List SrcInfoPackage :=
  st.sourceinfos.filter (fun si => !(binaryNames st).contains si.pkgname)

/-- The `replaces_not_in_repo` set: every name some srcinfo replaces,
minus all binary package names. -/
def replacesNotInRepo (st : Snapshot) : List String :=
  (st.sourceinfos.flatMap (·.replaces)).filter (fun t => !(binaryNames st).contains t)

/-- The `marked_new` set of `get_srcinfos_to_build`: pkgnames of srcinfos
that are not in any repo and all of whose `replaces` targets are in
`replaces_not_in_repo`. -/
def marked_new (st : Snapshot) : List String :=
  (notInRepo st).filterMap (fun si =>
    if si.replaces.all (fun t => (replacesNotInRepo st).contains t) then some si.pkgname
    else none)

/-- `get_srcinfos_to_build`: the update candidates followed by the new
srcinfos, plus the `marked_new` set. -/
def get_srcinfos_to_build (st : Snapshot) : List SrcInfoPackage × List String :=
  (updateCandidates st ++ notInRepo st, marked_new st)

/-! ## The worklist closure of `get_transitive_depends_and_resolve`

The `while todo: ... done.add(...)` loop of `app/api.py`, parameterised
by the resolution function and the successor function.  Python pops an
arbitrary element of the `todo` set; the list model pops the head (the
result is characterised below as the reachable set, which certifies that
the choice of pop order does not affect membership).  The `Nat` argument
is explicit fuel; `none` means the fuel ran out, and
`worklistFuel_isSome` below shows that the fuel chosen by the wrappers
never runs out, so this is only a device to make the recursion
structural. -/

def worklistFuel (resolve : String → String) (children : String → List String) :
    Nat → List String → List String → Option (List String)
  | 0, _, _ => none
  | _ + 1, [], done => some done
  | f + 1, n :: rest, done =>
    if resolve n ∈ done then worklistFuel resolve children f rest done
    else worklistFuel resolve children f (rest ++ children (resolve n)) (resolve n :: done)

/-- The names reachable from the seeds: the resolution of every seed,
closed under resolving the children of every reached name. -/
inductive WReach (resolve : String → String) (children : String → List String)
    (seeds : List String) : String → Prop where
  | seed {n : String} : n ∈ seeds → WReach resolve children seeds (resolve n)
  | step {m d : String} : WReach resolve children seeds m → d ∈ children m →
      WReach resolve children seeds (resolve d)

theorem worklist_sound {resolve : String → String} {children : String → List String}
    {seeds : List String} :
    ∀ (f : Nat) (todo done out : List String),
      worklistFuel resolve children f todo done = some out →
      (∀ n ∈ todo, WReach resolve children seeds (resolve n)) →
      (∀ m ∈ done, WReach resolve children seeds m) →
      ∀ m ∈ out, WReach resolve children seeds m := by
  intro f
  induction f with
  | zero => intro todo done out h; exact absurd h (by simp [worklistFuel])
  | succ f ih =>
    intro todo done out h hT hD
    cases todo with
    | nil =>
      rw [worklistFuel] at h
      injection h with h
      subst h
      exact hD
    | cons n rest =>
      rw [worklistFuel] at h
      split_ifs at h with hmem
      · exact ih rest done out h (fun x hx => hT x (List.mem_cons_of_mem _ hx)) hD
      · refine ih (rest ++ children (resolve n)) (resolve n :: done) out h ?_ ?_
        · intro x hx
          rcases List.mem_append.mp hx with hx | hx
          · exact hT x (List.mem_cons_of_mem _ hx)
          · exact WReach.step (hT n (List.mem_cons_self n rest)) hx
        · intro m hm
          rcases List.mem_cons.mp hm with hm | hm
          · subst hm; exact hT n (List.mem_cons_self n rest)
          · exact hD m hm

theorem worklist_invariant {resolve : String → String} {children : String → List String} :
    ∀ (f : Nat) (todo done out : List String),
      worklistFuel resolve children f todo done = some out →
      (∀ m ∈ done, ∀ d ∈ children m, resolve d ∈ done ∨ d ∈ todo) →
      (done ⊆ out) ∧ (∀ n ∈ todo, resolve n ∈ out) ∧
        (∀ m ∈ out, ∀ d ∈ children m, resolve d ∈ out) := by
  intro f
  induction f with
  | zero => intro todo done out h; exact absurd h (by simp [worklistFuel])
  | succ f ih =>
    intro todo done out h hInv
    cases todo with
    | nil =>
      rw [worklistFuel] at h
      injection h with h
      subst h
      refine ⟨fun x hx => hx, by simp, ?_⟩
      intro m hm d hd
      rcases hInv m hm d hd with hc | hc
      · exact hc
      · exact absurd hc (by simp)
    | cons n rest =>
      rw [worklistFuel] at h
      split_ifs at h with hmem
      · obtain ⟨h1, h2, h3⟩ := ih rest done out h (by
          intro m hm d hd
          rcases hInv m hm d hd with hc | hc
          · exact Or.inl hc
          · rcases List.mem_cons.mp hc with hc | hc
            · subst hc; exact Or.inl hmem
            · exact Or.inr hc)
        refine ⟨h1, ?_, h3⟩
        intro x hx
        rcases List.mem_cons.mp hx with hx | hx
        · subst hx; exact h1 hmem
        · exact h2 x hx
      · obtain ⟨h1, h2, h3⟩ := ih (rest ++ children (resolve n)) (resolve n :: done) out h (by
          intro m hm d hd
          rcases List.mem_cons.mp hm with hm | hm
          · subst hm
            exact Or.inr (List.mem_append.mpr (Or.inr hd))
          · rcases hInv m hm d hd with hc | hc
            · exact Or.inl (List.mem_cons_of_mem _ hc)
            · rcases List.mem_cons.mp hc with hc | hc
              · subst hc; exact Or.inl (List.mem_cons_self _ _)
              · exact Or.inr (List.mem_append.mpr (Or.inl hc)))
        refine ⟨?_, ?_, h3⟩
        · intro x hx
          exact h1 (List.mem_cons_of_mem _ hx)
        · intro x hx
          rcases List.mem_cons.mp hx with hx | hx
          · subst hx; exact h1 (List.mem_cons_self _ _)
          · exact h2 x (List.mem_append.mpr (Or.inl hx))

theorem worklist_complete {resolve : String → String} {children : String → List String}
    {seeds : List String} (f : Nat) (out : List String)
    (h : worklistFuel resolve children f seeds [] = some out) :
    ∀ m, WReach resolve children seeds m → m ∈ out := by
  obtain ⟨_, h2, h3⟩ := worklist_invariant f seeds [] out h (by simp)
  intro m hm
  induction hm with
  | seed hn => exact h2 _ hn
  | step _ hd ihm => exact h3 _ ihm _ hd

/-- Characterisation of a completed worklist run started from the seeds:
its result is exactly the reachable set. -/
theorem worklist_mem_iff {resolve : String → String} {children : String → List String}
    {seeds : List String} (f : Nat) (out : List String)
    (h : worklistFuel resolve children f seeds [] = some out) (m : String) :
    m ∈ out ↔ WReach resolve children seeds m := by
  constructor
  · intro hm
    exact worklist_sound f seeds [] out h (fun n hn => WReach.seed hn) (by simp) m hm
  · exact worklist_complete f out h m

theorem length_le_flatMap {α β : Type} (f : α → List β) :
    ∀ (l : List α) (a : α), a ∈ l → (f a).length ≤ (l.flatMap f).length := by
  intro l
  induction l with
  | nil => intro a ha; exact absurd ha (by simp)
  | cons x xs ih =>
    intro a ha
    rcases List.mem_cons.mp ha with ha | ha
    · subst ha
      simp only [List.flatMap_cons, List.length_append]
      omega
    · have := ih a ha
      simp only [List.flatMap_cons, List.length_append]
      omega

theorem length_filter_mono {α : Type} (p q : α → Bool)
    (himp : ∀ a, p a = true → q a = true) :
    ∀ l : List α, (l.filter p).length ≤ (l.filter q).length := by
  intro l
  induction l with
  | nil => simp
  | cons x xs ih =>
    by_cases hp : p x = true
    · rw [List.filter_cons_of_pos hp, List.filter_cons_of_pos (himp x hp)]
      simpa using ih
    · rw [List.filter_cons_of_neg (by simpa using hp)]
      by_cases hq : q x = true
      · rw [List.filter_cons_of_pos hq]
        simp only [List.length_cons]
        omega
      · rw [List.filter_cons_of_neg (by simpa using hq)]
        exact ih

theorem length_filter_cons_lt {α : Type} [DecidableEq α] :
    ∀ (u : List α) (m : α) (done : List α), m ∈ u → m ∉ done →
      (u.filter (fun x => decide (x ∉ m :: done))).length + 1 ≤
        (u.filter (fun x => decide (x ∉ done))).length := by
  intro u
  induction u with
  | nil => intro m done hm; exact absurd hm (by simp)
  | cons x xs ih =>
    intro m done hm hnd
    by_cases hxm : x = m
    · subst hxm
      rw [List.filter_cons_of_neg (by simp), List.filter_cons_of_pos (by simpa using hnd)]
      simp only [List.length_cons, Nat.add_le_add_iff_right]
      refine length_filter_mono _ _ ?_ xs
      intro a ha
      simp only [decide_eq_true_eq] at ha ⊢
      intro hc
      exact ha (List.mem_cons_of_mem _ hc)
    · have hm' : m ∈ xs := by
        rcases List.mem_cons.mp hm with hc | hc
        · exact absurd hc.symm hxm
        · exact hc
      by_cases hx : x ∈ done
      · rw [List.filter_cons_of_neg (by simp [hx]), List.filter_cons_of_neg (by simp [hx])]
        exact ih m done hm' hnd
      · have hx1 : x ∉ m :: done := by
          intro hc
          rcases List.mem_cons.mp hc with hc | hc
          · exact hxm hc
          · exact hx hc
        rw [List.filter_cons_of_pos (by simpa using hx1),
          List.filter_cons_of_pos (by simpa using hx)]
        simp only [List.length_cons]
        have := ih m done hm' hnd
        omega

theorem worklistFuel_isSome {resolve : String → String} {children : String → List String}
    (S0 CK : List String) (hch : ∀ m, ∀ d ∈ children m, d ∈ CK)
    (hlen : ∀ m, (children m).length ≤ CK.length) :
    ∀ (f : Nat) (todo done : List String),
      (∀ n ∈ todo, n ∈ S0 ∨ n ∈ CK) →
      (CK.length + 2) *
          ((dedupF ((S0 ++ CK).map resolve)).filter (fun x => decide (x ∉ done))).length
          + todo.length < f →
      worklistFuel resolve children f todo done ≠ none := by
  intro f
  induction f with
  | zero => intro todo done _ hμ; omega
  | succ f ih =>
    intro todo done hT hμ
    cases todo with
    | nil => rw [worklistFuel]; simp
    | cons n rest =>
      rw [worklistFuel]
      have hT' : ∀ x ∈ rest, x ∈ S0 ∨ x ∈ CK :=
        fun x hx => hT x (List.mem_cons_of_mem _ hx)
      split_ifs with hmem
      · refine ih rest done hT' ?_
        simp only [List.length_cons] at hμ
        omega
      · have hU : resolve n ∈ dedupF ((S0 ++ CK).map resolve) := by
          rw [mem_dedupF]
          refine List.mem_map.mpr ⟨n, ?_, rfl⟩
          rcases hT n (List.mem_cons_self n rest) with hc | hc
          · exact List.mem_append.mpr (Or.inl hc)
          · exact List.mem_append.mpr (Or.inr hc)
        have hdec := length_filter_cons_lt (dedupF ((S0 ++ CK).map resolve))
          (resolve n) done hU hmem
        refine ih (rest ++ children (resolve n)) (resolve n :: done) ?_ ?_
        · intro x hx
          rcases List.mem_append.mp hx with hx | hx
          · exact hT' x hx
          · exact Or.inr (hch (resolve n) x hx)
        · have hlc : (children (resolve n)).length ≤ CK.length := hlen (resolve n)
          simp only [List.length_append, List.length_cons] at hμ ⊢
          set A :=
            ((dedupF ((S0 ++ CK).map resolve)).filter (fun x => decide (x ∉ done))).length
            with hA
          set B :=
            ((dedupF ((S0 ++ CK).map resolve)).filter
              (fun x => decide (x ∉ resolve n :: done))).length with hB
          nlinarith [hμ, hdec, hlc]

/-! ## `resolve_package` and `get_transitive_makedepends` of `buildqueue2` -/

/-- The `srcinfo_provides` dict of `buildqueue2`: for every srcinfo (in
iteration order) and every name it provides, `provides → pkgname`; later
entries overwrite earlier ones. -/
def providesPairs (st : Snapshot) : List (String × String) :=
  st.sourceinfos.flatMap (fun si => si.provides.map (fun prov => (prov, si.pkgname)))

def srcinfo_provides (st : Snapshot) (k : String) : Option String :=
  lastAssoc (providesPairs st) k

/-- The `srcinfo_replaces` dict of `buildqueue2`. -/
def replacesPairs (st : Snapshot) : List (String × String) :=
  st.sourceinfos.flatMap (fun si => si.replaces.map (fun t => (t, si.pkgname)))

def srcinfo_replaces (st : Snapshot) (k : String) : Option String :=
  lastAssoc (replacesPairs st) k

/-- The tail of `resolve_package`: prefer the real srcinfo, else any
provider, else the name itself. -/
def resolve_fallback (st : Snapshot) (pkgname : String) : String :=
  if (lookupSI st pkgname).isSome then pkgname
  else (srcinfo_provides st pkgname).getD pkgname

/-- `resolve_package` of `buildqueue2`: if another package both provides
and replaces the name, prefer that one; otherwise prefer the real
srcinfo; otherwise any provider; otherwise the name itself. -/
def resolve_package (st : Snapshot) (pkgname : String) : String :=
  match srcinfo_replaces st pkgname, srcinfo_provides st pkgname with
  | some r, some p => if p = r then p else resolve_fallback st pkgname
  | _, _ => resolve_fallback st pkgname

/-- All declared dependency names of all srcinfos (an upper bound for
everything the closure can enqueue). -/
def depKeys (st : Snapshot) : List String :=
  st.sourceinfos.flatMap (·.depends)

/-- The expansion step of `get_transitive_depends_and_resolve`: a reached
name is expanded through its srcinfo's `depends` if it has a srcinfo, and
not at all otherwise (there is no fallback to binary-repo depends in the
code). -/
def gtdarChildren (st : Snapshot) (name : String) : List String :=
  match lookupSI st name with
  | some si => si.depends
  | none => []

/-- A provably sufficient fuel for the closure (see `gtdar_isSome`). -/
def gtdarFuel (st : Snapshot) (seeds : List String) : Nat :=
  ((depKeys st).length + 2) *
      (dedupF ((seeds ++ depKeys st).map (resolve_package st))).length
    + seeds.length + 1

theorem gtdarChildren_sub (st : Snapshot) (m : String) :
    ∀ d ∈ gtdarChildren st m, d ∈ depKeys st := by
  intro d hd
  unfold gtdarChildren at hd
  cases hsi : lookupSI st m with
  | none => rw [hsi] at hd; exact absurd hd (by simp)
  | some si =>
    rw [hsi] at hd
    have hmem : si ∈ st.sourceinfos := List.mem_of_find?_eq_some hsi
    exact List.mem_flatMap.mpr ⟨si, hmem, hd⟩

theorem gtdarChildren_len (st : Snapshot) (m : String) :
    (gtdarChildren st m).length ≤ (depKeys st).length := by
  unfold gtdarChildren
  cases hsi : lookupSI st m with
  | none => simp
  | some si =>
    have hmem : si ∈ st.sourceinfos := List.mem_of_find?_eq_some hsi
    exact length_le_flatMap (·.depends) st.sourceinfos si hmem

theorem gtdar_isSome (st : Snapshot) (packages : List String) :
    worklistFuel (resolve_package st) (gtdarChildren st)
      (gtdarFuel st packages) packages [] ≠ none := by
  refine worklistFuel_isSome packages (depKeys st)
    (gtdarChildren_sub st) (gtdarChildren_len st) _ packages [] (fun n hn => Or.inl hn) ?_
  have hfe :
      (dedupF ((packages ++ depKeys st).map (resolve_package st))).filter
          (fun x => decide (x ∉ ([] : List String)))
        = dedupF ((packages ++ depKeys st).map (resolve_package st)) :=
    List.filter_eq_self.mpr (by intro a _; simp)
  rw [hfe]
  unfold gtdarFuel
  omega

/-- `get_transitive_depends_and_resolve` of `buildqueue2`.  The `.getD []`
is never taken: `gtdar_isSome` shows the chosen fuel always suffices. -/
def get_transitive_depends_and_resolve (st : Snapshot) (packages : List String) :
    List String :=
  (worklistFuel (resolve_package st) (gtdarChildren st)
    (gtdarFuel st packages) packages []).getD []

/-- The seed set of `get_transitive_makedepends`: the union of the
declared `depends` and `makedepends` of each produced pkgname, looked up
directly (`state.sourceinfos[name]`, which raises `KeyError` — `none` —
when absent). -/
def makeSeeds (st : Snapshot) (packages : List String) : Option (List String) :=
  (packages.mapM (lookupSI st)).map
    (fun sis => sis.flatMap (fun si => si.depends ++ si.makedepends))

/-- `get_transitive_makedepends` of `buildqueue2`: seed with the direct
depends/makedepends of the produced pkgnames, then close under
`get_transitive_depends_and_resolve`. -/
def get_transitive_makedepends (st : Snapshot) (packages : List String) :
    Option (List String) :=
  (makeSeeds st packages).map (get_transitive_depends_and_resolve st)

theorem gtdar_mem (st : Snapshot) (packages : List String) (n : String) :
    n ∈ get_transitive_depends_and_resolve st packages ↔
      WReach (resolve_package st) (gtdarChildren st) packages n := by
  unfold get_transitive_depends_and_resolve
  cases h : worklistFuel (resolve_package st) (gtdarChildren st)
      (gtdarFuel st packages) packages [] with
  | none => exact absurd h (gtdar_isSome st packages)
  | some out =>
    simp only [Option.getD_some]
    exact worklist_mem_iff (gtdarFuel st packages) out h n

/-! ## The `buildqueue2` pipeline of `app/api.py`

Candidates are grouped into build units keyed by
`(repo_url, repo_path)`, preserving first-occurrence order (the `to_build`
dict); for each unit an internal entry is computed (pass 1 of the code),
its `makedepends` are restricted to the queued packages minus the unit's
own packages (pass 2), and finally the `QueueEntry` records with per-repo
`builds` are produced (pass 3).  Fields of the output that no claim
mentions (`version_repo`, which needs the derived `Source.version`, and
`source`) are omitted from the model. -/

def build_key (si : SrcInfoPackage) : String × String :=
  (si.repo_url, si.repo_path)

def srcinfosToBuild (st : Snapshot) : List SrcInfoPackage :=
  (get_srcinfos_to_build st).1

/-- The keys of the `to_build` dict, in first-occurrence order. -/
def buildKeys (st : Snapshot) : List (String × String) :=
  dedupF ((srcinfosToBuild st).map build_key)

/-- The srcinfo group of one build unit (the `to_build[key]` list, in
candidate order). -/
def groupFor (st : Snapshot) (k : String × String) : List SrcInfoPackage :=
  (srcinfosToBuild st).filter (fun si => build_key si == k)

/-- All candidates in the order the pass-1 loop of `buildqueue2` visits
them (`for srcinfos in to_build.values(): for si in srcinfos`). -/
def groupedCandidates (st : Snapshot) : List SrcInfoPackage :=
  (buildKeys st).flatMap (groupFor st)

/-- The `repo_mapping` dict: `pkgname → repo`, last write (in pass-1
visit order) wins. -/
def repoMapping (st : Snapshot) (name : String) : Option String :=
  lastAssoc ((groupedCandidates st).map (fun si => (si.pkgname, si.repo))) name

/-- `repo_mapping[name]` as used by `group_by_repo`; a missing key would
be a `KeyError` in the code and cannot occur for the names this is
applied to (all of them are produced pkgnames of queued units). -/
def repoMappingD (st : Snapshot) (name : String) : String :=
  (repoMapping st name).getD ""

/-- The `all_packages` set: every pkgname produced by any queued unit. -/
def allQueuedPackages (st : Snapshot) : List String :=
  (groupedCandidates st).map (·.pkgname)

/-- One internal entry of pass 1/2 of `buildqueue2` (the dict stored in
`entries`), with `makedepends` already restricted to
`all_packages - own packages` (pass 2). -/
structure BQEntry where
  key : String × String
  name : String
  version : String
  packages : List String
  newRepos : List String
  makedepends : List String
deriving DecidableEq, Inhabited

/-- The `packages` set of one build unit: the produced pkgnames. -/
def unitPackages (st : Snapshot) (k : String × String) : List String :=
  dedupF ((groupFor st k).map (·.pkgname))

/-- The unrestricted `makedepends` of one build unit: the transitive
closure of the produced packages, joined (set union) with the closure of
`['base-devel', 'base']`.  The `.getD []` on the `KeyError` option is
never taken for queued units (every produced pkgname has a srcinfo). -/
def unitRawMakedepends (st : Snapshot) (k : String × String) : List String :=
  (get_transitive_makedepends st (unitPackages st k)).getD [] ++
    get_transitive_depends_and_resolve st ["base-devel", "base"]

/-- The `new` list of one build unit: the repos `r` (of its srcinfos, in
first-occurrence order) for which *all* of the unit's srcinfos targeting
`r` are in `marked_new`. -/
def unitNewRepos (st : Snapshot) (k : String × String) : List String :=
  (dedupF ((groupFor st k).map (·.repo))).filter (fun r =>
    ((groupFor st k).filter (fun si => si.repo == r)).all (fun si =>
      (marked_new st).contains si.pkgname))

/-- Pass 1 and 2 of `buildqueue2` for the unit with key `k`, with
`makedepends` already restricted to `all_packages` minus the unit's own
packages (pass 2). -/
def entryFor (st : Snapshot) (k : String × String) : BQEntry :=
  { key := k
    name := ((groupFor st k).headD default).pkgbase
    version := ((groupFor st k).headD default).build_version
    packages := unitPackages st k
    newRepos := unitNewRepos st k
    makedepends := ((unitRawMakedepends st k).filter
        (fun n => (allQueuedPackages st).contains n)).filter
      (fun n => !(unitPackages st k).contains n) }

def bqEntries (st : Snapshot) : List BQEntry :=
  (buildKeys st).map (entryFor st)

/-- `group_by_repo` of `buildqueue2`: group names by
`repo_mapping[name]`, keys in first-occurrence order, each value list
`sorted(set(values))`. -/
def group_by_repo (st : Snapshot) (names : List String) :
    List (String × List String) :=
  (dedupF (names.map (repoMappingD st))).map (fun r =>
    (r, sortedStrings (dedupF (names.filter (fun n => repoMappingD st n == r)))))

/-- The `QueueBuild` pydantic model of `app/api.py`. -/
structure QueueBuild where
  packages : List String
  depends : List (String × List String)
  new : Bool
deriving DecidableEq, Inhabited

/-- The `QueueEntry` pydantic model of `app/api.py` (the fields the
verified claims mention). -/
structure QueueEntry where
  name : String
  version : String
  repo_url : String
  repo_path : String
  builds : List (String × QueueBuild)
deriving DecidableEq, Inhabited

/-- Pass 3 of `buildqueue2` for one unit: group the unit's packages and
its restricted makedepends by repo; each target repo `r` gets a
`QueueBuild` whose `depends` keeps only the groups keyed by `r` itself or
by `"msys"`, and whose `new` flag says whether `r` is in the unit's `new`
list. -/
def resultFor (st : Snapshot) (k : String × String) : QueueEntry :=
  let e := entryFor st k
  let depsGrouped := group_by_repo st e.makedepends
  { name := e.name
    version := e.version
    repo_url := k.1
    repo_path := k.2
    builds := (group_by_repo st e.packages).map (fun pr =>
      (pr.1,
        { packages := pr.2
          depends := depsGrouped.filter (fun d => d.1 == pr.1 || d.1 == "msys")
          new := e.newRepos.contains pr.1 })) }

/-- The `buildqueue2` endpoint: one `QueueEntry` per build unit, in the
first-occurrence order of the build keys among the candidates. -/
def buildqueue2 (st : Snapshot) : List QueueEntry :=
  (buildKeys st).map (resultFor st)

/-! ## Claim C1: ordering of the build queue -/

/-- Claim C1's property for one snapshot, stated over the internal
entries (which are in bijection, position by position, with the
`buildqueue2` output): whenever unit `u` (at position `i`) make-depends
on a package produced by unit `v` (at position `j`), `v` appears strictly
before `u`. -/
def depRespectingOrder (st : Snapshot) : Prop :=
  ∀ i ∈ List.range (bqEntries st).length, ∀ j ∈ List.range (bqEntries st).length,
    (((bqEntries st).getD i default).makedepends.any
      (fun n => ((bqEntries st).getD j default).packages.contains n)) = true →
    j < i

/-- A two-unit snapshot on which `buildqueue2` violates the claimed
ordering: both `a` and `b` are update candidates (binary `1-1`, git
`2-1`), `a` depends on `b`, and the endpoint returns unit `a` *before*
unit `b` (candidate enumeration order), with `b` listed in `a`'s
makedepends. -/
def siC1a : SrcInfoPackage :=
  ⟨"a", "a", "2", "1", "", "msys", "U", "pa", ["b"], [], [], []⟩

def siC1b : SrcInfoPackage :=
  ⟨"b", "b", "2", "1", "", "msys", "U", "pb", [], [], [], []⟩

def stC1 : Snapshot :=
  { sources := [⟨"a", [⟨"a", "1-1", "msys", []⟩]⟩, ⟨"b", [⟨"b", "1-1", "msys", []⟩]⟩]
    sourceinfos := [siC1a, siC1b] }

/-- **C1, counterexample.**  `buildqueue2` performs no topological sort:
on `stC1`, the unit producing `a` (which make-depends on `b`, produced by
the second unit) is returned first, so the dependency-respecting-order
claim fails. -/
theorem c1_counterexample : ¬ depRespectingOrder stC1 := by
  unfold depRespectingOrder
  decide

/-- **C1, amended.**  The endpoint returns exactly one entry per build
unit — the `(repo_url, repo_path)` keys of the output are distinct, and a
key appears in the output iff some candidate srcinfo has it — but in the
first-occurrence order of the candidate enumeration, not in a
dependency-respecting order. -/
theorem c1_theorem (st : Snapshot) :
    ((buildqueue2 st).map (fun e => (e.repo_url, e.repo_path))).Nodup ∧
      ∀ k : String × String,
        (∃ e ∈ buildqueue2 st, (e.repo_url, e.repo_path) = k) ↔
          ∃ si ∈ srcinfosToBuild st, build_key si = k := by
  have hkeys : (buildqueue2 st).map (fun e => (e.repo_url, e.repo_path)) = buildKeys st := by
    unfold buildqueue2
    rw [List.map_map]
    have heq : ((fun (e : QueueEntry) => (e.repo_url, e.repo_path)) ∘ resultFor st)
        = fun k => k := funext fun k => rfl
    rw [heq]
    simp
  constructor
  · rw [hkeys]; exact nodup_dedupF _
  · intro k
    have h1 : (∃ e ∈ buildqueue2 st, (e.repo_url, e.repo_path) = k) ↔ k ∈ buildKeys st := by
      rw [← hkeys]
      constructor
      · rintro ⟨e, he, hek⟩; exact List.mem_map.mpr ⟨e, he, hek⟩
      · intro hk; obtain ⟨e, he, hek⟩ := List.mem_map.mp hk; exact ⟨e, he, hek⟩
    rw [h1]
    unfold buildKeys
    rw [mem_dedupF]
    constructor
    · intro hk; obtain ⟨si, hsi, hk2⟩ := List.mem_map.mp hk; exact ⟨si, hsi, hk2⟩
    · rintro ⟨si, hsi, hk2⟩; exact List.mem_map.mpr ⟨si, hsi, hk2⟩

/-! ## Claims C8 and C10: restriction and per-repo grouping of depends -/

theorem entryFor_makedepends (st : Snapshot) (k : String × String) :
    (entryFor st k).makedepends =
      ((unitRawMakedepends st k).filter
          (fun n => (allQueuedPackages st).contains n)).filter
        (fun n => !(unitPackages st k).contains n) := rfl

theorem entryFor_packages (st : Snapshot) (k : String × String) :
    (entryFor st k).packages = unitPackages st k := rfl

theorem entryFor_newRepos (st : Snapshot) (k : String × String) :
    (entryFor st k).newRepos = unitNewRepos st k := rfl

theorem resultFor_builds (st : Snapshot) (k : String × String) :
    (resultFor st k).builds =
      (group_by_repo st (entryFor st k).packages).map (fun pr =>
        ((pr.1,
          { packages := pr.2
            depends := (group_by_repo st (entryFor st k).makedepends).filter
              (fun d => d.1 == pr.1 || d.1 == "msys")
            new := (entryFor st k).newRepos.contains pr.1 }) : String × QueueBuild)) := rfl

/-- **C8.**  After candidate assembly (the restriction loop of
`buildqueue2`), every unit's `makedepends` is a subset of the union of
all queued units' produced pkgnames and is disjoint from the unit's own
produced pkgnames. -/
theorem c8_theorem (st : Snapshot) :
    ∀ e ∈ bqEntries st,
      (∀ n ∈ e.makedepends, n ∈ allQueuedPackages st) ∧
        ∀ n ∈ e.makedepends, n ∉ e.packages := by
  intro e he
  obtain ⟨k, hk, rfl⟩ := List.mem_map.mp he
  rw [entryFor_makedepends]
  constructor
  · intro n hn
    have h1 := (List.mem_filter.mp (List.mem_filter.mp hn).1).2
    simpa using h1
  · intro n hn
    have h2 := (List.mem_filter.mp hn).2
    rw [entryFor_packages]
    simpa using h2

/-- Witness for C8 on the concrete snapshot `stC1`. -/
theorem c8_witness :
    entryFor stC1 ("U", "pa") ∈ bqEntries stC1 ∧
      ((∀ n ∈ (entryFor stC1 ("U", "pa")).makedepends, n ∈ allQueuedPackages stC1) ∧
        ∀ n ∈ (entryFor stC1 ("U", "pa")).makedepends,
          n ∉ (entryFor stC1 ("U", "pa")).packages) :=
  ⟨by decide, c8_theorem stC1 (entryFor stC1 ("U", "pa")) (by decide)⟩

/-- **C10.**  In every `QueueEntry`, for every target repo `r`, every key
of `builds[r].depends` is either `r` itself or `"msys"`. -/
theorem c10_theorem (st : Snapshot) :
    ∀ e ∈ buildqueue2 st, ∀ (r : String) (qb : QueueBuild), (r, qb) ∈ e.builds →
      ∀ (dr : String) (ds : List String), (dr, ds) ∈ qb.depends →
        dr = r ∨ dr = "msys" := by
  intro e he r qb hb dr ds hd
  obtain ⟨k, hk, rfl⟩ := List.mem_map.mp he
  rw [resultFor_builds] at hb
  obtain ⟨pr, hpr, heq⟩ := List.mem_map.mp hb
  injection heq with h1 h2
  subst h1
  subst h2
  have h3 := (List.mem_filter.mp hd).2
  simp only [Bool.or_eq_true, beq_iff_eq] at h3
  exact h3

/-- The first build of the first unit of `stC1` (used by witnesses). -/
def qbC1 : QueueBuild :=
  { packages := ["a"], depends := [("msys", ["b"])], new := false }

/-- Witness for C10 on the concrete snapshot `stC1`. -/
theorem c10_witness :
    resultFor stC1 ("U", "pa") ∈ buildqueue2 stC1 ∧
      ("msys", qbC1) ∈ (resultFor stC1 ("U", "pa")).builds ∧
      ("msys", ["b"]) ∈ qbC1.depends ∧
      (("msys" : String) = "msys" ∨ ("msys" : String) = "msys") :=
  ⟨by decide, by decide, by decide,
    c10_theorem stC1 (resultFor stC1 ("U", "pa")) (by decide) "msys" qbC1 (by decide)
      "msys" ["b"] (by decide)⟩

/-! ## Claim C7: update-candidate selection -/

theorem lookupSI_mem {st : Snapshot} {name : String} {si : SrcInfoPackage}
    (h : lookupSI st name = some si) : si ∈ st.sourceinfos ∧ si.pkgname = name := by
  refine ⟨List.mem_of_find?_eq_some h, ?_⟩
  have := List.find?_some h
  simpa using this

/-- In a list whose names are distinct, `find?` by an element's name
returns that element. -/
theorem find?_name_nodup {α : Type} (f : α → String) :
    ∀ l : List α, (l.map f).Nodup → ∀ a ∈ l, l.find? (fun x => f x == f a) = some a := by
  intro l
  induction l with
  | nil => intro _ a ha; exact absurd ha (by simp)
  | cons x xs ih =>
    intro hnd a ha
    rw [List.map_cons, List.nodup_cons] at hnd
    rcases List.mem_cons.mp ha with rfl | ha'
    · exact List.find?_cons_of_pos _ (by simp)
    · have hne : (f x == f a) = false := by
        rw [beq_eq_false_iff_ne]
        intro hc
        exact hnd.1 (hc ▸ List.mem_map.mpr ⟨a, ha', rfl⟩)
      rw [List.find?_cons_of_neg _ (by simp [hne])]
      exact ih hnd.2 a ha'

theorem lookupSI_self {st : Snapshot} (hnd : (st.sourceinfos.map (·.pkgname)).Nodup)
    {si : SrcInfoPackage} (hsi : si ∈ st.sourceinfos) :
    lookupSI st si.pkgname = some si := by
  unfold lookupSI
  exact find?_name_nodup (fun x => x.pkgname) st.sourceinfos hnd si hsi

/-- **C7.**  A srcinfo appears among the update candidates iff it is in
the snapshot's sourceinfos and some binary package with its pkgname
exists whose version its `build_version` strictly beats; in particular a
binary package whose srcinfo version is not newer contributes no
candidate. -/
theorem c7_theorem (st : Snapshot) (hnd : (st.sourceinfos.map (·.pkgname)).Nodup)
    (si : SrcInfoPackage) :
    si ∈ updateCandidates st ↔
      si ∈ st.sourceinfos ∧ ∃ s ∈ st.sources, ∃ p ∈ s.packages,
        p.name = si.pkgname ∧ version_is_newer_than si.build_version p.version = true := by
  unfold updateCandidates
  rw [List.mem_flatMap]
  constructor
  · rintro ⟨s, hs, hp⟩
    obtain ⟨p, hpmem, hpf⟩ := List.mem_filterMap.mp hp
    split at hpf
    · rename_i si' hlk
      split_ifs at hpf with hv
      · injection hpf with hpf
        subst hpf
        obtain ⟨hmem, hname⟩ := lookupSI_mem hlk
        exact ⟨hmem, s, hs, p, hpmem, hname.symm, hv⟩
    · exact absurd hpf (by simp)
  · rintro ⟨hmem, s, hs, p, hp, hname, hv⟩
    refine ⟨s, hs, List.mem_filterMap.mpr ⟨p, hp, ?_⟩⟩
    have hlk : lookupSI st p.name = some si := by
      rw [hname]; exact lookupSI_self hnd hmem
    rw [hlk]
    show (if version_is_newer_than si.build_version p.version = true then some si
      else none) = some si
    rw [if_pos hv]

/-- Witness for C7 on the concrete snapshot `stC1` and its srcinfo
`siC1a`. -/
theorem c7_witness :
    (stC1.sourceinfos.map (·.pkgname)).Nodup ∧
      (siC1a ∈ updateCandidates stC1 ↔
        siC1a ∈ stC1.sourceinfos ∧ ∃ s ∈ stC1.sources, ∃ p ∈ s.packages,
          p.name = siC1a.pkgname ∧
            version_is_newer_than siC1a.build_version p.version = true) :=
  ⟨by decide, c7_theorem stC1 (by decide) siC1a⟩

/-! ## Claim C3: the per-repo `new` flag -/

theorem lastAssoc_of_all {pairs : List (String × String)} {key v : String}
    (hex : ∃ p ∈ pairs, p.1 = key) (hall : ∀ p ∈ pairs, p.1 = key → p.2 = v) :
    lastAssoc pairs key = some v := by
  unfold lastAssoc
  cases hf : pairs.reverse.find? (fun p => p.1 == key) with
  | none =>
    obtain ⟨p0, hp0, hk0⟩ := hex
    have := List.find?_eq_none.mp hf p0 (List.mem_reverse.mpr hp0)
    simp [hk0] at this
  | some q =>
    have hq1 := List.find?_some hf
    have hq2 : q ∈ pairs := List.mem_reverse.mp (List.mem_of_find?_eq_some hf)
    have hv : q.2 = v := hall q hq2 (by simpa using hq1)
    simp [hv]

theorem srcinfosToBuild_sub (st : Snapshot) :
    ∀ si ∈ srcinfosToBuild st, si ∈ st.sourceinfos := by
  intro si hsi
  unfold srcinfosToBuild get_srcinfos_to_build at hsi
  rcases List.mem_append.mp hsi with h | h
  · unfold updateCandidates at h
    obtain ⟨s, hs, hp⟩ := List.mem_flatMap.mp h
    obtain ⟨p, hpmem, hpf⟩ := List.mem_filterMap.mp hp
    split at hpf
    · rename_i si' hlk
      split_ifs at hpf with hv
      injection hpf with hpf
      subst hpf
      exact (lookupSI_mem hlk).1
    · exact absurd hpf (by simp)
  · exact (List.mem_filter.mp h).1

theorem mem_groupedCandidates (st : Snapshot) (si : SrcInfoPackage) :
    si ∈ groupedCandidates st ↔ si ∈ srcinfosToBuild st := by
  unfold groupedCandidates
  rw [List.mem_flatMap]
  constructor
  · rintro ⟨k, hk, hsi⟩
    exact (List.mem_filter.mp hsi).1
  · intro hsi
    refine ⟨build_key si, ?_, ?_⟩
    · unfold buildKeys; rw [mem_dedupF]; exact List.mem_map.mpr ⟨si, hsi, rfl⟩
    · unfold groupFor; exact List.mem_filter.mpr ⟨hsi, by simp⟩

theorem eq_of_nodup_names {α : Type} (f : α → String) :
    ∀ l : List α, (l.map f).Nodup → ∀ a ∈ l, ∀ b ∈ l, f a = f b → a = b := by
  intro l
  induction l with
  | nil => intro _ a ha; exact absurd ha (by simp)
  | cons x xs ih =>
    intro hnd a ha b hb hf
    rw [List.map_cons, List.nodup_cons] at hnd
    rcases List.mem_cons.mp ha with rfl | ha' <;> rcases List.mem_cons.mp hb with rfl | hb'
    · rfl
    · exfalso; apply hnd.1; rw [hf]; exact List.mem_map.mpr ⟨b, hb', rfl⟩
    · exfalso; apply hnd.1; rw [← hf]; exact List.mem_map.mpr ⟨a, ha', rfl⟩
    · exact ih hnd.2 a ha' b hb' hf

theorem repoMappingD_eq (st : Snapshot) (hnd : (st.sourceinfos.map (·.pkgname)).Nodup)
    {si : SrcInfoPackage} (hsi : si ∈ groupedCandidates st) :
    repoMapping st si.pkgname = some si.repo := by
  unfold repoMapping
  refine lastAssoc_of_all ⟨(si.pkgname, si.repo), List.mem_map.mpr ⟨si, hsi, rfl⟩, rfl⟩ ?_
  rintro ⟨n, r⟩ hp hn
  obtain ⟨si', hsi', heq⟩ := List.mem_map.mp hp
  injection heq with h1 h2
  subst h1
  subst h2
  simp only [] at hn
  have hmem' : si' ∈ st.sourceinfos :=
    srcinfosToBuild_sub st si' ((mem_groupedCandidates st si').mp hsi')
  have hmem : si ∈ st.sourceinfos :=
    srcinfosToBuild_sub st si ((mem_groupedCandidates st si).mp hsi)
  have heq2 : si' = si := eq_of_nodup_names (·.pkgname) st.sourceinfos hnd si' hmem' si hmem hn
  rw [heq2]

theorem mem_marked_new (st : Snapshot) (hnd : (st.sourceinfos.map (·.pkgname)).Nodup)
    {si : SrcInfoPackage} (hsi : si ∈ st.sourceinfos) :
    si.pkgname ∈ marked_new st ↔
      si.pkgname ∉ binaryNames st ∧ ∀ t ∈ si.replaces, t ∉ binaryNames st := by
  unfold marked_new
  constructor
  · intro h
    obtain ⟨si', hsi', hf⟩ := List.mem_filterMap.mp h
    split_ifs at hf with hrep
    injection hf with hf
    have hmem' : si' ∈ st.sourceinfos := (List.mem_filter.mp hsi').1
    have heq : si' = si := eq_of_nodup_names (·.pkgname) st.sourceinfos hnd si' hmem' si hsi hf
    subst heq
    constructor
    · have := (List.mem_filter.mp hsi').2
      simpa using this
    · intro t ht
      have hc := List.all_eq_true.mp hrep t ht
      have ht2 : t ∈ replacesNotInRepo st := by simpa using hc
      have := (List.mem_filter.mp ht2).2
      simpa using this
  · rintro ⟨h1, h2⟩
    refine List.mem_filterMap.mpr ⟨si, List.mem_filter.mpr ⟨hsi, by simpa using h1⟩, ?_⟩
    have hcond : si.replaces.all (fun t => (replacesNotInRepo st).contains t) = true := by
      rw [List.all_eq_true]
      intro t ht
      have ht2 : t ∈ replacesNotInRepo st := by
        refine List.mem_filter.mpr ⟨List.mem_flatMap.mpr ⟨si, hsi, ht⟩, ?_⟩
        simpa using h2 t ht
      simpa using ht2
    rw [if_pos hcond]

theorem mem_unitNewRepos (st : Snapshot) (k : String × String) (r : String) :
    r ∈ unitNewRepos st k ↔
      r ∈ (groupFor st k).map (·.repo) ∧
        ∀ si ∈ groupFor st k, si.repo = r → si.pkgname ∈ marked_new st := by
  unfold unitNewRepos
  rw [List.mem_filter, mem_dedupF]
  constructor
  · rintro ⟨hr, hall⟩
    refine ⟨hr, ?_⟩
    intro si hsi hrepo
    have := List.all_eq_true.mp hall si (List.mem_filter.mpr ⟨hsi, by simp [hrepo]⟩)
    simpa using this
  · rintro ⟨hr, hall⟩
    refine ⟨hr, ?_⟩
    rw [List.all_eq_true]
    intro si hsi
    have h1 := List.mem_filter.mp hsi
    have h2 : si.repo = r := by simpa using h1.2
    simpa using hall si h1.1 h2

theorem builds_mem (st : Snapshot) (k : String × String) {r : String} {qb : QueueBuild}
    (h : (r, qb) ∈ (resultFor st k).builds) :
    qb.new = (unitNewRepos st k).contains r ∧
      ∃ name ∈ unitPackages st k, repoMappingD st name = r := by
  rw [resultFor_builds] at h
  obtain ⟨pr, hpr, heq⟩ := List.mem_map.mp h
  injection heq with h1 h2
  subst h1
  subst h2
  refine ⟨rfl, ?_⟩
  unfold group_by_repo at hpr
  obtain ⟨r', hr', heq'⟩ := List.mem_map.mp hpr
  subst heq'
  rw [mem_dedupF] at hr'
  obtain ⟨name, hname, hrm⟩ := List.mem_map.mp hr'
  exact ⟨name, hname, hrm⟩

/-- Formalisation of claim C3's freshness condition, scoped (as the claim
states it) to the target repo `r`: neither the srcinfo's pkgname nor any
of its replaces targets exists as a binary package in repo `r`. -/
def freshForRepoClaim (st : Snapshot) (r : String) (si : SrcInfoPackage) : Prop :=
  (¬ ∃ p ∈ binaryPackages st, p.repo = r ∧ p.name = si.pkgname) ∧
    ∀ t ∈ si.replaces, ¬ ∃ p ∈ binaryPackages st, p.repo = r ∧ p.name = t

/-- Claim C3 as stated, for one snapshot: each build's `new` flag for
repo `r` holds iff all the unit's srcinfos targeting `r` are fresh in
repo `r`'s snapshot. -/
def c3NewClaim (st : Snapshot) : Prop :=
  ∀ k ∈ buildKeys st, ∀ rq ∈ (resultFor st k).builds,
    (rq.2.new = true ↔
      ∀ si ∈ groupFor st k, si.repo = rq.1 → freshForRepoClaim st rq.1 si)

/-- A snapshot refuting C3 as stated: srcinfo `a` targets repo `foo`, but
the binary package `a` lives in repo `bar`.  No binary `a` exists in repo
`foo`, so the claim demands `new = true` for `foo`; the code checks
existence in *any* repo, finds the binary in `bar`, and reports
`new = false`. -/
def stC3 : Snapshot :=
  { sources := [⟨"a", [⟨"a", "1-1", "bar", []⟩]⟩]
    sourceinfos := [⟨"a", "a", "2", "1", "", "foo", "U", "p", [], [], [], []⟩] }

/-- **C3, counterexample.**  The `new` flag is computed against the
binary names of *all* repos, not just the target repo's: `stC3` violates
the claim as stated. -/
theorem c3_counterexample : ¬ c3NewClaim stC3 := by
  unfold c3NewClaim freshForRepoClaim
  decide

/-- **C3, amended.**  `builds[r].new = true` iff for every srcinfo of the
unit targeting repo `r`, neither its pkgname nor any of its declared
`replaces` targets exists as a binary package in *any* repo of the
current snapshot. -/
theorem c3_theorem (st : Snapshot) (hnd : (st.sourceinfos.map (·.pkgname)).Nodup)
    (k : String × String) (hk : k ∈ buildKeys st) (r : String) (qb : QueueBuild)
    (hq : (r, qb) ∈ (resultFor st k).builds) :
    qb.new = true ↔
      ∀ si ∈ groupFor st k, si.repo = r →
        si.pkgname ∉ binaryNames st ∧ ∀ t ∈ si.replaces, t ∉ binaryNames st := by
  obtain ⟨hnew, name, hname, hrm⟩ := builds_mem st k hq
  have hsub : ∀ si ∈ groupFor st k, si ∈ groupedCandidates st :=
    fun si hsi => List.mem_flatMap.mpr ⟨k, hk, hsi⟩
  have hSIsub : ∀ si ∈ groupFor st k, si ∈ st.sourceinfos := by
    intro si hsi
    exact srcinfosToBuild_sub st si (List.mem_filter.mp hsi).1
  rw [hnew]
  have hcontains : ((unitNewRepos st k).contains r = true) ↔ r ∈ unitNewRepos st k := by
    simp
  rw [hcontains, mem_unitNewRepos]
  obtain ⟨si0, hsi0, hpk⟩ := List.mem_map.mp ((mem_dedupF _ _).mp hname)
  have hr0 : si0.repo = r := by
    have h1 := repoMappingD_eq st hnd (hsub si0 hsi0)
    rw [hpk] at h1
    unfold repoMappingD at hrm
    rw [h1] at hrm
    simpa using hrm
  constructor
  · rintro ⟨_, hall⟩ si hsi hrepo
    exact (mem_marked_new st hnd (hSIsub si hsi)).mp (hall si hsi hrepo)
  · intro hfresh
    refine ⟨List.mem_map.mpr ⟨si0, hsi0, hr0⟩, ?_⟩
    intro si hsi hrepo
    exact (mem_marked_new st hnd (hSIsub si hsi)).mpr (hfresh si hsi hrepo)

/-- Witness for C3 (amended) on the concrete snapshot `stC1`: the unit
producing `a` builds for repo `msys` with `new = false`, and indeed its
pkgname `a` is present among the binary names. -/
theorem c3_witness :
    (stC1.sourceinfos.map (·.pkgname)).Nodup ∧ ("U", "pa") ∈ buildKeys stC1 ∧
      ("msys", qbC1) ∈ (resultFor stC1 ("U", "pa")).builds ∧
      (qbC1.new = true ↔
        ∀ si ∈ groupFor stC1 ("U", "pa"), si.repo = "msys" →
          si.pkgname ∉ binaryNames stC1 ∧ ∀ t ∈ si.replaces, t ∉ binaryNames stC1) :=
  ⟨by decide, by decide, by decide,
    c3_theorem stC1 (by decide) ("U", "pa") (by decide) "msys" qbC1 (by decide)⟩

/-! ## Claim C2: the transitive makedepends closure

C2 is a refinement claim: it describes a *reference* BFS in the spec's
words and asserts that `get_transitive_makedepends` computes the same
set.  `specReferenceBFS` below follows the claim's words — "prefer a
SrcInfoPackage with that exact name if one exists and otherwise fall back
to the binary repo's declared depends for that name, expanding until
fixed point" — and is compared against the embedding of the code. -/

/-- Binary-repo lookup by package name (first match). -/
def lookupBinary (st : Snapshot) (name : String) : Option Package :=
  (binaryPackages st).find? (fun p => p.name == name)

/-- The expansion step of the claim's reference BFS: the exact-name
srcinfo's depends if one exists, else the binary package's declared
depends, else nothing.  This definition follows the claim's words, for
comparison with the code's `gtdarChildren`/`resolve_package`. -/
def specReferenceChildren (st : Snapshot) (name : String) : List String :=
  match lookupSI st name with
  | some si => si.depends
  | none =>
    match lookupBinary st name with
    | some p => p.depends
    | none => []

/-- All declared binary dependency names (a bound for the reference
BFS's expansions). -/
def binDepKeys (st : Snapshot) : List String :=
  (binaryPackages st).flatMap (·.depends)

def specReferenceFuel (st : Snapshot) (seeds : List String) : Nat :=
  ((depKeys st ++ binDepKeys st).length + 2) *
      (dedupF ((seeds ++ (depKeys st ++ binDepKeys st)).map id)).length
    + seeds.length + 1

/-- The claim's reference BFS: a plain worklist closure over
`specReferenceChildren`, with no resolution (names stand for
themselves). -/
def specReferenceBFS (st : Snapshot) (seeds : List String) : List String :=
  (worklistFuel id (specReferenceChildren st)
    (specReferenceFuel st seeds) seeds []).getD []

theorem specReferenceChildren_sub (st : Snapshot) (m : String) :
    ∀ d ∈ specReferenceChildren st m, d ∈ depKeys st ++ binDepKeys st := by
  intro d hd
  unfold specReferenceChildren at hd
  cases hsi : lookupSI st m with
  | some si =>
    rw [hsi] at hd
    exact List.mem_append.mpr
      (Or.inl (List.mem_flatMap.mpr ⟨si, List.mem_of_find?_eq_some hsi, hd⟩))
  | none =>
    rw [hsi] at hd
    cases hb : lookupBinary st m with
    | some p =>
      rw [hb] at hd
      exact List.mem_append.mpr
        (Or.inr (List.mem_flatMap.mpr ⟨p, List.mem_of_find?_eq_some hb, hd⟩))
    | none => rw [hb] at hd; exact absurd hd (by simp)

theorem specReferenceChildren_len (st : Snapshot) (m : String) :
    (specReferenceChildren st m).length ≤ (depKeys st ++ binDepKeys st).length := by
  unfold specReferenceChildren
  rw [List.length_append]
  cases hsi : lookupSI st m with
  | some si =>
    show si.depends.length ≤ (depKeys st).length + (binDepKeys st).length
    have hle : si.depends.length ≤ (st.sourceinfos.flatMap (·.depends)).length :=
      length_le_flatMap (·.depends) st.sourceinfos si (List.mem_of_find?_eq_some hsi)
    unfold depKeys
    omega
  | none =>
    cases hb : lookupBinary st m with
    | some p =>
      show p.depends.length ≤ (depKeys st).length + (binDepKeys st).length
      have hle : p.depends.length ≤ ((binaryPackages st).flatMap (·.depends)).length :=
        length_le_flatMap (·.depends) (binaryPackages st) p
          (List.mem_of_find?_eq_some hb)
      unfold binDepKeys
      omega
    | none =>
      show List.length [] ≤ (depKeys st).length + (binDepKeys st).length
      simp

theorem specReferenceBFS_isSome (st : Snapshot) (seeds : List String) :
    worklistFuel id (specReferenceChildren st)
      (specReferenceFuel st seeds) seeds [] ≠ none := by
  refine worklistFuel_isSome seeds (depKeys st ++ binDepKeys st)
    (specReferenceChildren_sub st) (specReferenceChildren_len st) _ seeds []
    (fun n hn => Or.inl hn) ?_
  have hfe :
      (dedupF ((seeds ++ (depKeys st ++ binDepKeys st)).map id)).filter
          (fun x => decide (x ∉ ([] : List String)))
        = dedupF ((seeds ++ (depKeys st ++ binDepKeys st)).map id) :=
    List.filter_eq_self.mpr (by intro a _; simp)
  rw [hfe]
  unfold specReferenceFuel
  omega

/-- The snapshot refuting C2 as stated, exposing both divergences between
the claim's reference resolution and the code's:
* `a` depends on `b`; `b` has no srcinfo but a binary package with
  declared depends `["c"]`.  The claim's BFS falls back to the binary
  depends and reaches `c`; the code never consults binary depends.
* `a` depends on `x`; `x` has an exact srcinfo, but `y` both provides and
  replaces `x`.  The claim prefers the exact srcinfo (keeping `x`); the
  code's `resolve_package` prefers the provider-and-replacer and yields
  `y`. -/
def stC2 : Snapshot :=
  { sources := [⟨"b", [⟨"b", "1-1", "msys", ["c"]⟩]⟩]
    sourceinfos :=
      [⟨"a", "a", "2", "1", "", "msys", "U", "pa", ["b", "x"], [], [], []⟩,
       ⟨"x", "x", "2", "1", "", "msys", "U", "px", [], [], [], []⟩,
       ⟨"y", "y", "2", "1", "", "msys", "U", "py", [], [], ["x"], ["x"]⟩] }

/-- **C2, counterexample.**  On `stC2`, the unit producing `a` has seeds
`["b", "x"]`; the code's `get_transitive_makedepends` returns the set
`{y, b}` while the claim's reference BFS returns `{c, x, b}`: the
reference reaches `c` through the binary fallback the code does not have,
and the code resolves `x` to its provider-and-replacer `y` instead of
preferring the exact srcinfo. -/
theorem c2_counterexample :
    makeSeeds stC2 ["a"] = some ["b", "x"] ∧
      get_transitive_makedepends stC2 ["a"] = some ["y", "b"] ∧
      specReferenceBFS stC2 ["b", "x"] = ["c", "x", "b"] ∧
      ("c" ∈ specReferenceBFS stC2 ["b", "x"] ∧
        "c" ∉ (["y", "b"] : List String)) ∧
      ("y" ∈ (["y", "b"] : List String) ∧
        "y" ∉ specReferenceBFS stC2 ["b", "x"]) := by
  refine ⟨?_, ?_, ?_, ⟨?_, ?_⟩, ⟨?_, ?_⟩⟩ <;> decide

/-- **C2, amended.**  The set computed by `get_transitive_makedepends`
equals the set of names reachable from the seeds (the union of each
produced pkgname's declared depends and makedepends) where every name is
resolved by the code's `resolve_package` (provider-and-replacer first,
then the exact srcinfo, then any provider) and a resolved name is
expanded through its srcinfo's depends only — with no fallback to the
binary repo's declared depends. -/
theorem c2_theorem (st : Snapshot) (packages seeds : List String)
    (h1 : makeSeeds st packages = some seeds) (out : List String)
    (h2 : get_transitive_makedepends st packages = some out) (n : String) :
    n ∈ out ↔ WReach (resolve_package st) (gtdarChildren st) seeds n := by
  unfold get_transitive_makedepends at h2
  rw [h1] at h2
  simp only [Option.map_some'] at h2
  injection h2 with h2
  subst h2
  exact gtdar_mem st seeds n

/-- Witness for C2 (amended) at the concrete snapshot `stC2`. -/
theorem c2_witness :
    makeSeeds stC2 ["a"] = some ["b", "x"] ∧
      get_transitive_makedepends stC2 ["a"] = some ["y", "b"] ∧
      (("b" : String) ∈ (["y", "b"] : List String) ↔
        WReach (resolve_package stC2) (gtdarChildren stC2) ["b", "x"] "b") :=
  ⟨by decide, by decide,
    c2_theorem stC2 ["a"] ["b", "x"] (by decide) ["y", "b"] (by decide) "b"⟩

/-! ## Claim C9: snapshot publication and readers

`AppState` (`app/appstate.py`) holds `sources` and `sourceinfos` in two
separate attributes with two separate setters.  One refresh cycle of
`update_loop` (`app/fetch/update.py`) runs `update_source()` and
`update_sourceinfos()` concurrently under `asyncio.gather`; each task
either assigns its map once (an atomic step, no `await` between building
the map and assigning it) or skips the assignment when
`check_needs_update` says nothing changed; the `gather` joins before the
next cycle starts.  Readers run on the same event loop and can observe
the state between any two steps.

The model: a publish step records which cycle's value a setter wrote;
`runSteps` folds a step list over the initial state `(0, 0)`; a valid
trace is a concatenation of per-cycle step lists, each cycle `c`
contributing its two steps in either order, or only one of them, or
none (the skip cases). -/

inductive PubStep where
  | pubSources : Nat → PubStep
  | pubSourceinfos : Nat → PubStep
deriving DecidableEq

/-- One setter assignment: replace the named map wholesale. -/
def applyStep (s : Nat × Nat) : PubStep → Nat × Nat
  | .pubSources c => (c, s.2)
  | .pubSourceinfos c => (s.1, c)

/-- The state a reader observes after the steps in `l` have run. -/
def runSteps (l : List PubStep) : Nat × Nat :=
  l.foldl applyStep (0, 0)

/-- A refresh cycle in which both fetches succeed and publish. -/
def fullCycle (c : Nat) : List PubStep :=
  [.pubSources c, .pubSourceinfos c]

/-- The possible step sequences of one refresh cycle: both publishes in
either order (the `gather` interleaving), one of them (the other skipped
by `check_needs_update`), or neither. -/
def cycleChoices (c : Nat) : List (List PubStep) :=
  [[.pubSources c, .pubSourceinfos c],
   [.pubSourceinfos c, .pubSources c],
   [.pubSources c], [.pubSourceinfos c], []]

/-- Traces of the refresh loop: cycle `1`, then cycle `2`, ... -/
inductive ValidTrace : Nat → List PubStep → Prop where
  | nil : ValidTrace 0 []
  | cons {c : Nat} {t cyc : List PubStep} : ValidTrace c t →
      cyc ∈ cycleChoices (c + 1) → ValidTrace (c + 1) (t ++ cyc)

/-- Claim C9 as stated: at every prefix of every valid trace (every point
a reader can run), the observed `sources` and `sourceinfos` originate
from the same refresh cycle. -/
def c9AtomClaim : Prop :=
  ∀ (c : Nat) (t : List PubStep), ValidTrace c t →
    ∀ p q : List PubStep, t = p ++ q → (runSteps p).1 = (runSteps p).2

/-- **C9, counterexample.**  The two maps are published by two separate
setters: in the valid trace `cycle 1 = [pubSources 1, pubSourceinfos 1]`,
`cycle 2 = [pubSources 2, pubSourceinfos 2]`, a reader running after
`pubSources 2` but before `pubSourceinfos 2` observes `sources` from
cycle 2 together with `sourceinfos` from cycle 1. -/
theorem c9_counterexample : ¬ c9AtomClaim := by
  intro h
  have h1 : ValidTrace 1 (([] : List PubStep) ++
      [PubStep.pubSources 1, PubStep.pubSourceinfos 1]) :=
    ValidTrace.cons ValidTrace.nil (by simp [cycleChoices])
  rw [List.nil_append] at h1
  have ht : ValidTrace 2 ([PubStep.pubSources 1, PubStep.pubSourceinfos 1] ++
      [PubStep.pubSources 2, PubStep.pubSourceinfos 2]) :=
    ValidTrace.cons h1 (by simp [cycleChoices])
  have hobs := h 2 _ ht
    [PubStep.pubSources 1, PubStep.pubSourceinfos 1, PubStep.pubSources 2]
    [PubStep.pubSourceinfos 2] rfl
  simp [runSteps, applyStep] at hobs

theorem foldl_origin :
    ∀ (p : List PubStep) (init : Nat × Nat),
      ((p.foldl applyStep init).1 = init.1 ∨
        PubStep.pubSources (p.foldl applyStep init).1 ∈ p) ∧
      ((p.foldl applyStep init).2 = init.2 ∨
        PubStep.pubSourceinfos (p.foldl applyStep init).2 ∈ p) := by
  intro p
  induction p with
  | nil => intro init; simp
  | cons s rest ih =>
    intro init
    rw [List.foldl_cons]
    obtain ⟨ih1, ih2⟩ := ih (applyStep init s)
    constructor
    · rcases ih1 with h | h
      · cases s with
        | pubSources c =>
          right
          rw [h]
          exact List.mem_cons_self _ _
        | pubSourceinfos c =>
          left
          rw [h]
          rfl
      · right; exact List.mem_cons_of_mem _ h
    · rcases ih2 with h | h
      · cases s with
        | pubSources c =>
          left
          rw [h]
          rfl
        | pubSourceinfos c =>
          right
          rw [h]
          exact List.mem_cons_self _ _
      · right; exact List.mem_cons_of_mem _ h

/-- **C9, amended.**  What does hold: each map a reader observes was, as
a whole, written by some publish step of the trace (or is the initial
value) — there are no torn individual maps — and immediately after a
refresh cycle that publishes both maps, the two maps do agree (both carry
that cycle's value).  In between the two publishes of a cycle, and across
cycles in which one fetch skips, the pair can mix refresh cycles. -/
theorem c9_theorem :
    (∀ p : List PubStep,
      ((runSteps p).1 = 0 ∨ PubStep.pubSources (runSteps p).1 ∈ p) ∧
        ((runSteps p).2 = 0 ∨ PubStep.pubSourceinfos (runSteps p).2 ∈ p)) ∧
      ∀ (c : Nat) (t : List PubStep),
        runSteps (t ++ fullCycle (c + 1)) = (c + 1, c + 1) :=
  ⟨fun p => foldl_origin p (0, 0), fun c t => by
    show (t ++ fullCycle (c + 1)).foldl applyStep (0, 0) = _
    rw [List.foldl_append]
    rfl⟩

end Msys2
